import Mathlib

set_option linter.unusedVariables false

/-!
Verification development for the MergeTree part write path
(`dbms/src/Storages/MergeTree/MergedBlockOutputStream.cpp`).

The development shallowly embeds the write path: each C++ class member that
the properties below depend on becomes a Lean structure field, and each
member function becomes a Lean function on those structures.  Machine
integers of the source (`size_t` row counts, byte counts and offsets) are
modelled as `Nat`; all quantities involved are row/byte counts that stay far
below `2^64` in every reachable state (in particular the carried
`index_offset` always stays below `index_granularity`, so the `size_t`
subtractions in the source never wrap), hence unbounded naturals coincide
with the source's `size_t` arithmetic on the reachable states.

External collaborators (the type system's substream enumeration and bulk
serializer, the compression codec, the file abstractions) are modelled as
deterministic functions, as documented on each definition.
-/

namespace MergeTreeWrite

/-- Byte sequences; one `Nat` per serialized unit. -/
abbrev Bytes := List Nat

/-- Modelled from the spec: the compression codec is an external collaborator
("compression codec implementations" are out of scope).  It is modelled as a
deterministic length-prefixed frame: compressing a logical block produces a
physical frame holding the block's length followed by its bytes.  All
properties proved below depend only on this being a deterministic function of
the block's content. -/
def compressFrame (block : Bytes) : Bytes := block.length :: block

/-- State of `IMergedBlockOutputStream::ColumnStream`: one column substream's
on-disk pair of files.

* `buffer`  — the working buffer of the `CompressedWriteBuffer`
  (`compressed`); `compressed.offset()` is `buffer.length`.
* `flushed` — the logical bytes already compressed into frames;
  `compressed.count()` is `flushed.length + buffer.length`, and the rolling
  hash `compressed.getHash()` is modelled as the byte list itself.
* `plain`   — the physical data-file content written through
  `plain_hashing`; `plain_hashing.count()` is `plain.length`.
* `marks`   — the marks-file content: `(plain_hashing.count(),
  compressed.offset())` pairs, in write order. -/
structure ColumnStream where
  buffer : Bytes := []
  flushed : Bytes := []
  plain : Bytes := []
  marks : List (Nat × Nat) := []
deriving DecidableEq

/-- A fresh `ColumnStream`, as constructed by `addStream` (both files empty). -/
def ColumnStream.initial : ColumnStream := {}

/-- `stream.compressed.next()`: compress the working buffer into a frame,
append the frame to the physical file and reset the buffer.  On an empty
working buffer `WriteBuffer::next` is a no-op. -/
def ColumnStream.compressedNext (s : ColumnStream) : ColumnStream :=
  if s.buffer = [] then s
  else { s with
    buffer := []
    flushed := s.flushed ++ s.buffer
    plain := s.plain ++ compressFrame s.buffer }

/-- Writing one logical byte through `stream.compressed`: `WriteBuffer::write`
flushes the working buffer when it is exactly full (`pos == end`) before
copying in more data. -/
def ColumnStream.writeByte (maxB : Nat) (s : ColumnStream) (b : Nat) : ColumnStream :=
  let s := if s.buffer.length = maxB then s.compressedNext else s
  { s with buffer := s.buffer ++ [b] }

/-- Writing a sequence of logical bytes through `stream.compressed`. -/
def ColumnStream.writeBytes (maxB : Nat) (s : ColumnStream) (bs : Bytes) : ColumnStream :=
  bs.foldl (ColumnStream.writeByte maxB) s

/-- `stream.compressed.nextIfAtEnd()`: flush exactly when the working buffer
is full, so that the next mark points at the beginning of a fresh block. -/
def ColumnStream.nextIfAtEnd (maxB : Nat) (s : ColumnStream) : ColumnStream :=
  if s.buffer.length = maxB then s.compressedNext else s

/-- Lines 103–108 of the source, for one substream: flush the compressed
block if it already holds at least `min_compress_block_size` logical bytes,
then append one mark `(plain_hashing.count(), compressed.offset())`. -/
def ColumnStream.writeSingleMark (minB : Nat) (s : ColumnStream) : ColumnStream :=
  let s := if minB ≤ s.buffer.length then s.compressedNext else s
  { s with marks := s.marks ++ [(s.plain.length, s.buffer.length)] }

/-- `ColumnStream::finalize`: flush the partially filled compressed block
(flushing the plain file and the marks file does not change their modelled
content). -/
def ColumnStream.finalize (s : ColumnStream) : ColumnStream :=
  s.compressedNext

/-- The marks file as a flat sequence of fixed-width integers: each mark is
written as two integers, physical offset first, in-block offset second. -/
def marksFlat (s : ColumnStream) : List Nat :=
  s.marks.foldr (fun m acc => m.1 :: m.2 :: acc) []

/-- Modelled from the spec: one physical substream of a column's type, as
produced by the type system's substream-enumeration callback
(`IDataType::enumerateStreams`), which is an external collaborator.

* `isArraySizes` — whether `substream_path.back().type ==
  IDataType::Substream::ArraySizes`.
* `fileName` — the result of `IDataType::getFileNameForStream(column_name,
  substream_path)`.  Sibling columns of one nested structure map their
  `ArraySizes` substream to the *same* file name, which is exactly how
  substream sharing arises.
* `encode` — the per-row byte production of the type system's bulk
  serializer (`serializeBinaryBulkWithMultipleStreams`) into this substream;
  serializing rows `[ofs, ofs+limit)` writes the concatenation of the encoded
  rows into the substream's buffer. -/
structure Substream where
  isArraySizes : Bool
  fileName : String
  encode : Nat → Bytes

/-- The `column_streams` registry: physical stream name → stream state
(`std::map<String, std::unique_ptr<ColumnStream>>`; keys are unique). -/
abbrev Streams := List (String × ColumnStream)

/-- Lookup in the stream registry (`column_streams[stream_name]`). -/
def lookupStream : Streams → String → Option ColumnStream
  | [], _ => none
  | (k, v) :: rest, nm => if k = nm then some v else lookupStream rest nm

/-- Apply `f` to the registry entry named `nm` (first match; registry keys
are unique in every reachable state). -/
def updateStream : Streams → String → (ColumnStream → ColumnStream) → Streams
  | [], _, _ => []
  | (k, v) :: rest, nm, f =>
    if k = nm then (k, f v) :: rest else (k, v) :: updateStream rest nm f

/-- The `skip_offsets` filter used by every substream visitor in the source:
a substream is skipped iff `skip_offsets` is set and the substream is an
`ArraySizes` substream. -/
def subActive (skipOffsets : Bool) (sub : Substream) : Bool :=
  !(skipOffsets && sub.isArraySizes)

/-- `IMergedBlockOutputStream::addStream` (lines 43–71): enumerate the
column's substreams; skip `ArraySizes` substreams when `skip_offsets` is set;
reuse an existing registry entry with the same derived stream name (shared
substreams of sibling nested columns); otherwise construct a fresh
`ColumnStream`. -/
def addStream (skipOffsets : Bool) : List Substream → Streams → Streams
  | [], streams => streams
  | sub :: rest, streams =>
    addStream skipOffsets rest
      (if skipOffsets && sub.isArraySizes then streams
       else if (lookupStream streams sub.fileName).isSome then streams
       else streams ++ [(sub.fileName, ColumnStream.initial)])

/-- The mark-writing visitor of `writeData` (lines 95–109): for every active
substream of the column, conditionally flush and write one mark. -/
def writeGranuleMarks (minB : Nat) : List Substream → Bool → Streams → Streams
  | [], _, streams => streams
  | sub :: rest, skipOffsets, streams =>
    writeGranuleMarks minB rest skipOffsets
      (if subActive skipOffsets sub then
        updateStream streams sub.fileName (ColumnStream.writeSingleMark minB)
       else streams)

/-- `type.serializeBinaryBulkWithMultipleStreams(column, stream_getter,
prev_mark, limit, …)` (line 121): write rows `[prevMark, prevMark+limit)`
(clamped to the column size) into each active substream's compressed buffer,
using each substream's encoder. -/
def serializeGranule (maxB : Nat) : List Substream → Bool → List Nat → Nat → Nat →
    Streams → Streams
  | [], _, _, _, _, streams => streams
  | sub :: rest, skipOffsets, values, prevMark, limit, streams =>
    serializeGranule maxB rest skipOffsets values prevMark limit
      (if subActive skipOffsets sub then
        updateStream streams sub.fileName
          (fun cs => cs.writeBytes maxB (((values.drop prevMark).take limit).map sub.encode).flatten)
       else streams)

/-- The post-serialization visitor of `writeData` (lines 124–131): close out
a compressed block that ended exactly at the buffer boundary. -/
def nextIfAtEndAll (maxB : Nat) : List Substream → Bool → Streams → Streams
  | [], _, streams => streams
  | sub :: rest, skipOffsets, streams =>
    nextIfAtEndAll maxB rest skipOffsets
      (if subActive skipOffsets sub then
        updateStream streams sub.fileName (ColumnStream.nextIfAtEnd maxB)
       else streams)

/-- The granule loop of `IMergedBlockOutputStream::writeData` (lines 82–134),
total rendering.  The source's `while (prev_mark < size)` advances
`prev_mark` by `limit` each iteration; when `limit` is `0` (possible only
when `index_granularity` is `0`, outside the storage's contract) the source
loop would not terminate, and this rendering stops instead — see
`writeDataLoopFuel` for the divergence-faithful rendering and the theorem
relating the two. -/
def writeDataGo (g minB maxB : Nat) (subs : List Substream) (skipOffsets : Bool)
    (values : List Nat) (index_offset : Nat) (prevMark : Nat) (streams : Streams) : Streams :=
  if h : prevMark < values.length then
    if hc : prevMark = 0 ∧ index_offset ≠ 0 then
      -- First granule with a carried `index_offset`: short limit, no marks.
      let streams2 := serializeGranule maxB subs skipOffsets values prevMark index_offset streams
      let streams3 := nextIfAtEndAll maxB subs skipOffsets streams2
      writeDataGo g minB maxB subs skipOffsets values index_offset
        (prevMark + index_offset) streams3
    else
      let streams1 := writeGranuleMarks minB subs skipOffsets streams
      let streams2 := serializeGranule maxB subs skipOffsets values prevMark g streams1
      let streams3 := nextIfAtEndAll maxB subs skipOffsets streams2
      if hg : 0 < g then
        writeDataGo g minB maxB subs skipOffsets values index_offset (prevMark + g) streams3
      else streams3
  else streams
termination_by values.length - prevMark
decreasing_by
  · omega
  · omega

/-- The `writeData` granule loop, rendered step for step with an explicit
fuel bound; `none` means the loop did not finish within `fuel` iterations
(the source loop has no guard on the limit, so with granularity `0` it can
run forever).  `writeDataGo` above is the loop's total rendering; the C10
theorem proves that `values.length` iterations of fuel always suffice when
the granularity is positive, and that the two renderings then agree. -/
def writeDataLoopFuel : Nat → Nat → Nat → Nat → List Substream → Bool →
    List Nat → Nat → Nat → Streams → Option Streams
  | 0, _, _, _, _, _, values, _, prevMark, streams =>
    if prevMark < values.length then none else some streams
  | fuel + 1, g, minB, maxB, subs, skipOffsets, values, index_offset, prevMark, streams =>
    if prevMark < values.length then
      if prevMark = 0 ∧ index_offset ≠ 0 then
        let streams2 := serializeGranule maxB subs skipOffsets values prevMark index_offset streams
        let streams3 := nextIfAtEndAll maxB subs skipOffsets streams2
        writeDataLoopFuel fuel g minB maxB subs skipOffsets values index_offset
          (prevMark + index_offset) streams3
      else
        let streams1 := writeGranuleMarks minB subs skipOffsets streams
        let streams2 := serializeGranule maxB subs skipOffsets values prevMark g streams1
        let streams3 := nextIfAtEndAll maxB subs skipOffsets streams2
        writeDataLoopFuel fuel g minB maxB subs skipOffsets values index_offset
          (prevMark + g) streams3
    else some streams

/-- `IMergedBlockOutputStream::writeData` (lines 74–135): run the granule
loop from `prev_mark = 0`.  `values.length` iterations of fuel are proved
sufficient whenever the granularity is positive (claim C10); the fall-back
value is never reached in that regime.  The `offset_columns` parameter is
received exactly as in the source; the body of this revision of `writeData`
never reads or writes it. -/
def writeData (g minB maxB : Nat) (subs : List Substream) (skipOffsets : Bool)
    (values : List Nat) (index_offset : Nat) (offset_columns : List String)
    (streams : Streams) : Streams :=
  (writeDataLoopFuel values.length g minB maxB subs skipOffsets values index_offset 0
    streams).getD streams

/-- The sequence of granule starting rows (`prev_mark` values) visited by the
`writeData` loop, following exactly the loop's control flow. -/
def granuleStarts (g index_offset size : Nat) (prevMark : Nat) : List Nat :=
  if h : prevMark < size then
    if hc : prevMark = 0 ∧ index_offset ≠ 0 then
      prevMark :: granuleStarts g index_offset size (prevMark + index_offset)
    else if hg : 0 < g then
      prevMark :: granuleStarts g index_offset size (prevMark + g)
    else [prevMark]
  else []
termination_by size - prevMark
decreasing_by
  · omega
  · omega

/-- Marks invariant of one column stream: the physical-offset components of
its marks are non-decreasing in write order, and every recorded physical
offset is bounded by the current physical file size. -/
def StreamInv (s : ColumnStream) : Prop :=
  (s.marks.map Prod.fst).Pairwise (· ≤ ·) ∧ ∀ m ∈ s.marks, m.1 ≤ s.plain.length

/-- All registry entries satisfy the marks invariant. -/
def AllStreamInv (streams : Streams) : Prop := ∀ p ∈ streams, StreamInv p.2

/-- One `writeData` call as issued by the writers (arguments of one call). -/
structure WriteDataCall where
  g : Nat
  minB : Nat
  maxB : Nat
  subs : List Substream
  skipOffsets : Bool
  values : List Nat
  index_offset : Nat

/-- Apply one `writeData` call to the stream registry. -/
def applyWriteDataCall (streams : Streams) (c : WriteDataCall) : Streams :=
  writeData c.g c.minB c.maxB c.subs c.skipOffsets c.values c.index_offset [] streams

/-- A writer instance's lifetime of `writeData` calls on its registry. -/
def runWriteDataCalls (calls : List WriteDataCall) (streams : Streams) : Streams :=
  calls.foldl applyWriteDataCall streams

/-! ### The index section of `MergedBlockOutputStream::writeImpl` -/

/-- The body of the index sampling loop with an explicit fuel bound (each
iteration advances `i` by `g ≥ 1`, so `rows` iterations always suffice; see
`sampleIndices_unfold`). -/
def sampleIndicesFuel : Nat → Nat → Nat → Nat → List Nat
  | 0, _, _, _ => []
  | fuel + 1, g, rows, i =>
    if i < rows ∧ 0 < g then i :: sampleIndicesFuel fuel g rows (i + g) else []

/-- The sampled row positions of the index loop (line 409):
`for (size_t i = index_offset; i < rows; i += storage.index_granularity)`.
The `0 < g` guard renders the loop total: with granularity `0` the source
loop would not advance (outside the storage's contract). -/
def sampleIndices (g rows i : Nat) : List Nat :=
  sampleIndicesFuel rows g rows i

/-- Line 425: `(storage.index_granularity - index_offset + rows) %
storage.index_granularity`.  The subtraction is exact whenever
`index_offset ≤ g`, which holds in every reachable state. -/
def writtenForLastMark (g index_offset rows : Nat) : Nat :=
  (g - index_offset + rows) % g

/-- Line 426: the recomputed carried offset
`(storage.index_granularity - written_for_last_mark) %
storage.index_granularity`. -/
def nextIndexOffset (g index_offset rows : Nat) : Nat :=
  (g - writtenForLastMark g index_offset rows) % g

/-- The index-side state of a `MergedBlockOutputStream`: the members
`marks_count`, `index_offset`, `index_columns` and the content of the
`primary.idx` stream (`index_stream`). -/
structure IndexState where
  marks_count : Nat := 0
  index_offset : Nat := 0
  index_columns : List (List Nat) := []
  indexBytes : Bytes := []
deriving DecidableEq

/-- One sampled row of the index loop body (lines 411–421): in a sorted
merging mode, append each primary-key column's value at row `i` to its
accumulator (`index_columns[j]->insertFrom`) and serialize it into the
primary-index stream (`serializeBinary`, modelled as the identity encoding
of the sampled value); in every mode increment `marks_count`.  The `j` loop
runs over the primary columns; pairing accumulator `j` with key column `j`
models exactly that (in every reachable state the two lists have equal
length). -/
def indexSampleStep (unsorted : Bool) (keyCols : List (List Nat)) (i : Nat)
    (st : IndexState) : IndexState :=
  if unsorted then { st with marks_count := st.marks_count + 1 }
  else
    { st with
      index_columns := st.index_columns.zipWith (fun ic kc => ic ++ [kc.getD i 0]) keyCols
      indexBytes := st.indexBytes ++ keyCols.map (fun kc => kc.getD i 0)
      marks_count := st.marks_count + 1 }

/-- The index section of `writeImpl` (lines 367–372 and 399–427) for one
block: lazily initialize `index_columns` (one empty accumulator per
primary-key column), run the sampling loop, and recompute the carried
`index_offset`. -/
def writeIndexBlock (g : Nat) (unsorted : Bool) (keyCols : List (List Nat))
    (rows : Nat) (st : IndexState) : IndexState :=
  let st0 :=
    { st with
      index_columns :=
        if st.index_columns.isEmpty then keyCols.map (fun _ => []) else st.index_columns }
  let st1 := (sampleIndices g rows st.index_offset).foldl
    (fun s i => indexSampleStep unsorted keyCols i s) st0
  { st1 with index_offset := nextIndexOffset g st.index_offset rows }

/-- The accumulator trace of the sampling loop on `index_columns` alone
(used to reason about `writeIndexBlock` componentwise). -/
def icsFold (unsorted : Bool) (kcs : List (List Nat)) : List Nat → List (List Nat) → List (List Nat)
  | [], ics => ics
  | i :: rest, ics =>
    icsFold unsorted kcs rest
      (if unsorted then ics else ics.zipWith (fun ic kc => ic ++ [kc.getD i 0]) kcs)

/-- The bytes appended to the primary-index stream by the sampling loop. -/
def bytesFold (unsorted : Bool) (kcs : List (List Nat)) : List Nat → Bytes
  | [] => []
  | i :: rest =>
    (if unsorted then [] else kcs.map (fun kc => kc.getD i 0)) ++ bytesFold unsorted kcs rest

/-- Split each key column into consecutive chunks of the given sizes: the
per-block key columns of a sequence of `write` calls whose blocks
concatenate to the original columns. -/
def chunksOf : List Nat → List (List Nat) → List (List (List Nat) × Nat)
  | [], _ => []
  | sz :: rest, cols =>
    (cols.map (fun c => c.take sz), sz) :: chunksOf rest (cols.map (fun c => c.drop sz))

/-- Run the index section over a sequence of blocks. -/
def foldIndexChunks (g : Nat) (unsorted : Bool)
    (chunks : List (List (List Nat) × Nat)) (st : IndexState) : IndexState :=
  chunks.foldl (fun s c => writeIndexBlock g unsorted c.1 c.2 s) st

/-! ### Blocks, permutations and the full writer -/

/-- The error codes raised on the modelled paths. -/
inductive Err where
  | NOT_IMPLEMENTED
  | BAD_ARGUMENTS
  | SIZES_OF_COLUMNS_DOESNT_MATCH
  | NOT_FOUND_COLUMN_IN_BLOCK
  | POSITION_OUT_OF_BOUND
deriving DecidableEq

/-- One entry of the sort description: a column referenced by name (when
`column_name` is non-empty) or by position, as in the source. -/
structure SortColumnDescription where
  column_name : String
  column_number : Nat

/-- One column of a block: its name, its type (reduced to the substream list
the write path consumes) and its in-memory values, one `Nat` per row. -/
structure ColumnWithTypeAndName where
  name : String
  subs : List Substream
  values : List Nat

/-- A block is an ordered list of columns. -/
abbrev Block := List ColumnWithTypeAndName

/-- `Block::checkNumberOfRows`: all columns must report the same row count. -/
def checkNumberOfRows (b : Block) : Bool :=
  match b with
  | [] => true
  | c :: rest => rest.all (fun c2 => c2.values.length = c.values.length)

/-- `Block::rows()`: the row count of the first column. -/
def blockRows (b : Block) : Nat :=
  match b with
  | [] => 0
  | c :: _ => c.values.length

/-- `Block::getByName`: the first column with the given name. -/
def getByName (b : Block) (nm : String) : Option ColumnWithTypeAndName :=
  b.find? (fun c => c.name = nm)

/-- `Block::safeGetByPosition`. -/
def safeGetByPosition (b : Block) (i : Nat) : Option ColumnWithTypeAndName :=
  b.get? i

/-- Modelled from the spec: `IColumn::permute(perm, 0)` of the column type
system (an external collaborator): with limit `0` the result has the
column's own row count, and row `i` of the result is row `perm[i]` of the
input.  The source throws when `perm` is shorter than the column; this total
model reads out-of-range positions as default values, and every property
below is instantiated on genuine permutations only. -/
def permuteVals (p : List Nat) (vs : List Nat) : List Nat :=
  (List.range vs.length).map (fun i => vs.getD (p.getD i 0) 0)

/-- Permute one column's values. -/
def permuteColumn (p : List Nat) (c : ColumnWithTypeAndName) : ColumnWithTypeAndName :=
  { c with values := permuteVals p c.values }

/-- Physically permute every column of a block. -/
def permuteBlock (p : List Nat) (b : Block) : Block :=
  b.map (permuteColumn p)

/-- Default column (used only for the always-in-range `getD` accesses). -/
def dfltColumn : ColumnWithTypeAndName := ⟨"", [], []⟩

/-- The storage configuration consumed by the writers. -/
structure Cfg where
  index_granularity : Nat
  min_compress_block_size : Nat
  max_compress_block_size : Nat
  /-- `storage.merging_params.mode == MergeTreeData::MergingParams::Unsorted`. -/
  unsorted : Bool
  sort_description : List SortColumnDescription

/-- Lines 347–365 of `writeImpl`: resolve the primary-key columns in sort
description order, reject duplicate references, build the name→position map,
and permute each primary column in advance when a permutation is given.
`pcs.length` plays the role of the loop counter `i`. -/
def resolvePrimaryGo (block : Block) (perm : Option (List Nat)) :
    List SortColumnDescription → List ColumnWithTypeAndName → List (String × Nat) →
    Except Err (List ColumnWithTypeAndName × List (String × Nat))
  | [], pcs, m => .ok (pcs, m)
  | d :: rest, pcs, m =>
    let nameE : Except Err String :=
      if d.column_name ≠ "" then .ok d.column_name
      else
        match safeGetByPosition block d.column_number with
        | some c => .ok c.name
        | none => .error .POSITION_OUT_OF_BOUND
    match nameE with
    | .error e => .error e
    | .ok nm =>
      if (m.lookup nm).isSome then .error .BAD_ARGUMENTS
      else
        match
          (if d.column_name ≠ "" then getByName block d.column_name
           else safeGetByPosition block d.column_number) with
        | none =>
          .error (if d.column_name ≠ "" then .NOT_FOUND_COLUMN_IN_BLOCK
                  else .POSITION_OUT_OF_BOUND)
        | some c0 =>
          let c := match perm with
            | none => c0
            | some p => permuteColumn p c0
          resolvePrimaryGo block perm rest (pcs ++ [c]) (m ++ [(nm, pcs.length)])

/-- Resolution of the primary-key columns for one `writeImpl` call. -/
def resolvePrimary (sd : List SortColumnDescription) (block : Block)
    (perm : Option (List Nat)) :
    Except Err (List ColumnWithTypeAndName × List (String × Nat)) :=
  resolvePrimaryGo block perm sd [] []

/-- Lines 374–397 of `writeImpl`: write every column of `columns_list`.  With
a permutation, a primary-key column uses its already-permuted copy from
`primary_columns`, and any other column is permuted on the fly; without a
permutation the block's column is written as is.  Every call passes the
per-write `offset_columns` set and `skip_offsets = false`, exactly as the
source does. -/
def writeAllColumns (cfg : Cfg) :
    List String → Block → Option (List Nat) → List ColumnWithTypeAndName →
    List (String × Nat) → Nat → List String → Streams → Except Err Streams
  | [], _, _, _, _, _, _, streams => .ok streams
  | nm :: rest, block, perm, pcs, n2p, index_offset, offset_columns, streams =>
    match getByName block nm with
    | none => .error .NOT_FOUND_COLUMN_IN_BLOCK
    | some c =>
      let vals := match perm with
        | none => c.values
        | some p =>
          match n2p.lookup nm with
          | some pos => (pcs.getD pos dfltColumn).values
          | none => permuteVals p c.values
      writeAllColumns cfg rest block perm pcs n2p index_offset offset_columns
        (writeData cfg.index_granularity cfg.min_compress_block_size
          cfg.max_compress_block_size c.subs false vals index_offset offset_columns streams)

/-- The mutable state of a `MergedBlockOutputStream`. -/
structure MergedBlockOutputStream where
  streams : Streams := []
  marks_count : Nat := 0
  index_offset : Nat := 0
  index_columns : List (List Nat) := []
  /-- Content of the `primary.idx` stream (`index_stream`). -/
  indexBytes : Bytes := []
deriving DecidableEq

/-- A freshly constructed full writer with the given registry. -/
def mkWriter (streams : Streams) : MergedBlockOutputStream :=
  { streams := streams }

/-- `MergedBlockOutputStream::writeImpl` (lines 333–427): row-count check,
primary-key resolution, per-column data writing, index sampling and the
recomputation of the carried `index_offset`. -/
def writeImpl (cfg : Cfg) (columns_list : List String)
    (s : MergedBlockOutputStream) (block : Block) (perm : Option (List Nat)) :
    Except Err MergedBlockOutputStream :=
  if checkNumberOfRows block = false then .error .SIZES_OF_COLUMNS_DOESNT_MATCH
  else
    match resolvePrimary cfg.sort_description block perm with
    | .error e => .error e
    | .ok (pcs, n2p) =>
      -- The per-write set of written offset columns (line 339); this
      -- revision's `writeData` receives it but never consults it.
      let offset_columns : List String := []
      match writeAllColumns cfg columns_list block perm pcs n2p s.index_offset
          offset_columns s.streams with
      | .error e => .error e
      | .ok streams1 =>
        let ist := writeIndexBlock cfg.index_granularity cfg.unsorted
          (pcs.map (fun c => c.values)) (blockRows block)
          ⟨s.marks_count, s.index_offset, s.index_columns, s.indexBytes⟩
        .ok { streams := streams1
              marks_count := ist.marks_count
              index_offset := ist.index_offset
              index_columns := ist.index_columns
              indexBytes := ist.indexBytes }

/-- `MergedBlockOutputStream::write`: data is pre-sorted. -/
def write (cfg : Cfg) (columns_list : List String)
    (s : MergedBlockOutputStream) (block : Block) :
    Except Err MergedBlockOutputStream :=
  writeImpl cfg columns_list s block none

/-- `MergedBlockOutputStream::writeWithPermutation`. -/
def writeWithPermutation (cfg : Cfg) (columns_list : List String)
    (s : MergedBlockOutputStream) (block : Block) (permutation : List Nat) :
    Except Err MergedBlockOutputStream :=
  writeImpl cfg columns_list s block (some permutation)

/-- A sequence of `write` / `writeWithPermutation` calls on one writer. -/
def writeSeq (cfg : Cfg) (columns_list : List String)
    (calls : List (Block × Option (List Nat))) (s : MergedBlockOutputStream) :
    Except Err MergedBlockOutputStream :=
  calls.foldlM (fun st c => writeImpl cfg columns_list st c.1 c.2) s

/-- `MergedBlockOutputStream::writeSuffix` (lines 251–254): always throws
`NOT_IMPLEMENTED`; no state escapes. -/
def MergedBlockOutputStream.writeSuffix (s : MergedBlockOutputStream) :
    Except Err MergedBlockOutputStream :=
  .error .NOT_IMPLEMENTED

/-- The state of a `MergedColumnOnlyOutputStream` that the modelled claims
touch. -/
structure MergedColumnOnlyOutputStream where
  streams : Streams := []
  index_offset : Nat := 0
  initialized : Bool := false
deriving DecidableEq

/-- `MergedColumnOnlyOutputStream::writeSuffix` (lines 468–471): always
throws `NOT_IMPLEMENTED`; no state escapes. -/
def MergedColumnOnlyOutputStream.writeSuffix (s : MergedColumnOnlyOutputStream) :
    Except Err MergedColumnOnlyOutputStream :=
  .error .NOT_IMPLEMENTED

/-! ### Checksums, the part directory and the suffix path -/

/-- An on-disk file name: stem plus extension.  The source concatenates the
two strings; keeping them as a pair keeps the concatenation injective. -/
structure FileName where
  stem : String
  ext : String
deriving DecidableEq

/-- One entry of `MergeTreeData::DataPart::Checksums::files` (fields are
default-initialized and assigned individually, as in the source; marks files
only ever receive `file_size`/`file_hash`).  Hashes are modelled as the
hashed byte content itself. -/
structure Checksum where
  is_compressed : Bool := false
  uncompressed_size : Nat := 0
  uncompressed_hash : Bytes := []
  file_size : Nat := 0
  file_hash : Bytes := []
deriving DecidableEq

/-- The checksum map, file name → entry (`std::map`; keys unique). -/
abbrev Checksums := List (FileName × Checksum)

/-- `checksums.files[name]` update: apply `f` to the existing entry or to a
default-constructed one. -/
def csUpdate (nm : FileName) (f : Checksum → Checksum) : Checksums → Checksums
  | [] => [(nm, f {})]
  | (k, v) :: rest => if k = nm then (k, f v) :: rest else (k, v) :: csUpdate nm f rest

/-- `ColumnStream::addToChecksums` (lines 172–184). -/
def ColumnStream.addToChecksums (name : String) (s : ColumnStream)
    (checksums : Checksums) : Checksums :=
  let checksums := csUpdate ⟨name, ".bin"⟩
    (fun c =>
      { c with
        is_compressed := true
        uncompressed_size := s.flushed.length + s.buffer.length
        uncompressed_hash := s.flushed ++ s.buffer
        file_size := s.plain.length
        file_hash := s.plain }) checksums
  csUpdate ⟨name, ".mrk"⟩
    (fun c => { c with file_size := (marksFlat s).length, file_hash := marksFlat s })
    checksums

/-- The part directory's file-system state as affected by the full writer
(`init` and the suffix path; the per-stream data/marks files live in the
stream registry). -/
structure FS where
  dirExists : Bool := false
  files : List FileName := []
deriving DecidableEq

/-- `MergedBlockOutputStream::init` (lines 320–330): create the part
directory; open the `primary.idx` stream unless the merging mode is
Unsorted. -/
def initPart (cfg : Cfg) : FS :=
  { dirExists := true
    files := if cfg.unsorted then [] else [⟨"primary", ".idx"⟩] }

/-- `MergedBlockOutputStream::writeSuffixAndGetChecksums` (lines 256–303):
start from the pre-supplied checksums, flush and checksum `primary.idx`
unless unsorted, finalize and checksum every column stream, clear the
registry; if no marks were ever produced, remove the part directory
recursively and return an empty checksum set, otherwise write `columns.txt`
and `checksums.txt` and return the checksums. -/
def writeSuffixAndGetChecksums (cfg : Cfg)
    (total_column_list : List (String × String)) (additional : Option Checksums)
    (s : MergedBlockOutputStream) (fs : FS) :
    Checksums × MergedBlockOutputStream × FS :=
  let checksums := additional.getD []
  let checksums :=
    if cfg.unsorted then checksums
    else csUpdate ⟨"primary", ".idx"⟩
      (fun c => { c with file_size := s.indexBytes.length, file_hash := s.indexBytes })
      checksums
  let checksums := s.streams.foldl
    (fun cs p => ColumnStream.addToChecksums p.1 p.2.finalize cs) checksums
  let s1 := { s with streams := [] }
  if s.marks_count = 0 then
    -- A part is empty — all records are deleted: remove the directory
    -- recursively and discard all checksums.
    ([], s1, { dirExists := false, files := [] })
  else
    (checksums, s1,
      { fs with files := fs.files ++ [⟨"columns", ".txt"⟩, ⟨"checksums", ".txt"⟩] })

/-! ## Helper lemmas -/

theorem marksFoldr_acc (l : List (Nat × Nat)) (acc : List Nat) :
    l.foldr (fun m acc => m.1 :: m.2 :: acc) acc
      = l.foldr (fun m acc => m.1 :: m.2 :: acc) [] ++ acc := by
  induction l with
  | nil => rfl
  | cons x xs ih => simp [List.foldr_cons, ih]

theorem writeSingleMark_marks (minB : Nat) (s : ColumnStream) :
    (s.writeSingleMark minB).marks
      = s.marks ++ [((s.writeSingleMark minB).plain.length,
                     (s.writeSingleMark minB).buffer.length)] := by
  by_cases h1 : minB ≤ s.buffer.length <;>
    by_cases h2 : s.buffer = [] <;>
      simp [ColumnStream.writeSingleMark, ColumnStream.compressedNext, h1, h2]

theorem writeSingleMark_marks_length (minB : Nat) (s : ColumnStream) :
    (s.writeSingleMark minB).marks.length = s.marks.length + 1 := by
  rw [writeSingleMark_marks]
  simp

theorem lookupStream_updateStream (st : Streams) (nm nm' : String)
    (f : ColumnStream → ColumnStream) :
    lookupStream (updateStream st nm f) nm'
      = if nm' = nm then (lookupStream st nm).map f else lookupStream st nm' := by
  induction st with
  | nil => simp [updateStream, lookupStream]
  | cons p rest ih =>
    obtain ⟨k, v⟩ := p
    by_cases hk : k = nm
    · subst hk
      by_cases h' : nm' = k
      · subst h'
        simp [updateStream, lookupStream]
      · have hk' : ¬(k = nm') := fun h => h' (Eq.symm h)
        simp [updateStream, lookupStream, h', hk']
    · by_cases h' : nm' = k
      · subst h'
        simp [updateStream, lookupStream, hk]
      · have hk' : ¬(k = nm') := fun h => h' (Eq.symm h)
        simp [updateStream, lookupStream, hk, h', hk', ih]

theorem csUpdate_keys (nm : FileName) (f : Checksum → Checksum) (cs : Checksums)
    (x : FileName) (hx : x ∈ (csUpdate nm f cs).map Prod.fst) :
    x = nm ∨ x ∈ cs.map Prod.fst := by
  induction cs with
  | nil =>
    simp [csUpdate] at hx
    exact Or.inl hx
  | cons p rest ih =>
    obtain ⟨k, v⟩ := p
    by_cases hk : k = nm
    · rw [csUpdate, if_pos hk] at hx
      simp only [List.map_cons, List.mem_cons] at hx ⊢
      tauto
    · rw [csUpdate, if_neg hk] at hx
      simp only [List.map_cons, List.mem_cons] at hx ⊢
      rcases hx with h | h
      · tauto
      · rcases ih h with h1 | h1 <;> tauto

theorem inv_initial : StreamInv ColumnStream.initial := by
  constructor <;> simp [ColumnStream.initial, StreamInv]

theorem inv_compressedNext {s : ColumnStream} (h : StreamInv s) :
    StreamInv s.compressedNext := by
  by_cases hb : s.buffer = []
  · simpa [ColumnStream.compressedNext, hb] using h
  · refine ⟨?_, ?_⟩
    · simpa [ColumnStream.compressedNext, hb] using h.1
    · intro m hm
      simp only [ColumnStream.compressedNext, hb, if_false] at hm ⊢
      have := h.2 m hm
      simp only [List.length_append]
      omega

theorem inv_writeByte {s : ColumnStream} (maxB b : Nat) (h : StreamInv s) :
    StreamInv (s.writeByte maxB b) := by
  have h1 : StreamInv (if s.buffer.length = maxB then s.compressedNext else s) := by
    by_cases hb : s.buffer.length = maxB
    · simpa [hb] using inv_compressedNext h
    · simpa [hb] using h
  refine ⟨h1.1, ?_⟩
  intro m hm
  exact h1.2 m hm

theorem inv_writeBytes {s : ColumnStream} (maxB : Nat) (bs : Bytes)
    (h : StreamInv s) : StreamInv (s.writeBytes maxB bs) := by
  induction bs generalizing s with
  | nil => exact h
  | cons b rest ih => exact ih (inv_writeByte maxB b h)

theorem inv_nextIfAtEnd {s : ColumnStream} (maxB : Nat) (h : StreamInv s) :
    StreamInv (s.nextIfAtEnd maxB) := by
  by_cases hb : s.buffer.length = maxB
  · simpa [ColumnStream.nextIfAtEnd, hb] using inv_compressedNext h
  · simpa [ColumnStream.nextIfAtEnd, hb] using h

theorem inv_appendMark {t : ColumnStream} (x : Nat) (h : StreamInv t) :
    StreamInv { t with marks := t.marks ++ [(t.plain.length, x)] } := by
  constructor
  · show ((t.marks ++ [(t.plain.length, x)]).map Prod.fst).Pairwise (· ≤ ·)
    rw [List.map_append, List.pairwise_append]
    refine ⟨h.1, by simp, ?_⟩
    intro a ha b hb
    simp only [List.map_cons, List.map_nil, List.mem_singleton] at hb
    subst hb
    obtain ⟨m, hm, hma⟩ := List.mem_map.mp ha
    subst hma
    exact h.2 m hm
  · intro m hm
    rcases List.mem_append.mp hm with h1 | h1
    · exact h.2 m h1
    · simp only [List.mem_singleton] at h1
      subst h1
      simp

theorem inv_writeSingleMark {s : ColumnStream} (minB : Nat) (h : StreamInv s) :
    StreamInv (s.writeSingleMark minB) := by
  have h1 : StreamInv (if minB ≤ s.buffer.length then s.compressedNext else s) := by
    by_cases hb : minB ≤ s.buffer.length
    · simpa [hb] using inv_compressedNext h
    · simpa [hb] using h
  exact inv_appendMark _ h1

theorem allInv_updateStream {streams : Streams} (nm : String)
    (f : ColumnStream → ColumnStream) (hf : ∀ s, StreamInv s → StreamInv (f s))
    (h : AllStreamInv streams) : AllStreamInv (updateStream streams nm f) := by
  induction streams with
  | nil => intro p hp; cases hp
  | cons q rest ih =>
    obtain ⟨k, v⟩ := q
    by_cases hk : k = nm
    · rw [updateStream, if_pos hk]
      intro p hp
      rcases List.mem_cons.mp hp with h1 | h1
      · subst h1
        exact hf v (h (k, v) (List.mem_cons_self _ _))
      · exact h p (List.mem_cons_of_mem _ h1)
    · rw [updateStream, if_neg hk]
      intro p hp
      rcases List.mem_cons.mp hp with h1 | h1
      · subst h1
        exact h (k, v) (List.mem_cons_self _ _)
      · exact ih (fun q hq => h q (List.mem_cons_of_mem _ hq)) p h1

theorem allInv_writeGranuleMarks {streams : Streams} (minB : Nat)
    (subs : List Substream) (skipOffsets : Bool) (h : AllStreamInv streams) :
    AllStreamInv (writeGranuleMarks minB subs skipOffsets streams) := by
  induction subs generalizing streams with
  | nil => exact h
  | cons sub rest ih =>
    rw [writeGranuleMarks]
    by_cases ha : subActive skipOffsets sub
    · rw [if_pos ha]
      exact ih (allInv_updateStream _ _ (fun s hs => inv_writeSingleMark minB hs) h)
    · rw [if_neg ha]
      exact ih h

theorem allInv_serializeGranule {streams : Streams} (maxB : Nat)
    (subs : List Substream) (skipOffsets : Bool) (values : List Nat)
    (prevMark limit : Nat) (h : AllStreamInv streams) :
    AllStreamInv (serializeGranule maxB subs skipOffsets values prevMark limit streams) := by
  induction subs generalizing streams with
  | nil => exact h
  | cons sub rest ih =>
    rw [serializeGranule]
    by_cases ha : subActive skipOffsets sub
    · rw [if_pos ha]
      exact ih (allInv_updateStream _ _ (fun s hs => inv_writeBytes maxB _ hs) h)
    · rw [if_neg ha]
      exact ih h

theorem allInv_nextIfAtEndAll {streams : Streams} (maxB : Nat)
    (subs : List Substream) (skipOffsets : Bool) (h : AllStreamInv streams) :
    AllStreamInv (nextIfAtEndAll maxB subs skipOffsets streams) := by
  induction subs generalizing streams with
  | nil => exact h
  | cons sub rest ih =>
    rw [nextIfAtEndAll]
    by_cases ha : subActive skipOffsets sub
    · rw [if_pos ha]
      exact ih (allInv_updateStream _ _ (fun s hs => inv_nextIfAtEnd maxB hs) h)
    · rw [if_neg ha]
      exact ih h

theorem allInv_writeDataLoopFuel {streams out : Streams}
    (fuel g minB maxB : Nat) (subs : List Substream) (skipOffsets : Bool)
    (values : List Nat) (index_offset prevMark : Nat)
    (h : AllStreamInv streams)
    (hout : writeDataLoopFuel fuel g minB maxB subs skipOffsets values index_offset
      prevMark streams = some out) : AllStreamInv out := by
  induction fuel generalizing prevMark streams with
  | zero =>
    rw [writeDataLoopFuel] at hout
    by_cases hlt : prevMark < values.length
    · rw [if_pos hlt] at hout; cases hout
    · rw [if_neg hlt] at hout
      cases hout
      exact h
  | succ fuel ih =>
    rw [writeDataLoopFuel] at hout
    by_cases hlt : prevMark < values.length
    · rw [if_pos hlt] at hout
      by_cases hc : prevMark = 0 ∧ index_offset ≠ 0
      · rw [if_pos hc] at hout
        exact ih _ (allInv_nextIfAtEndAll maxB subs skipOffsets
          (allInv_serializeGranule maxB subs skipOffsets values prevMark index_offset h)) hout
      · rw [if_neg hc] at hout
        exact ih _ (allInv_nextIfAtEndAll maxB subs skipOffsets
          (allInv_serializeGranule maxB subs skipOffsets values prevMark g
            (allInv_writeGranuleMarks minB subs skipOffsets h))) hout
    · rw [if_neg hlt] at hout
      cases hout
      exact h

theorem allInv_writeData {streams : Streams} (g minB maxB : Nat)
    (subs : List Substream) (skipOffsets : Bool) (values : List Nat)
    (index_offset : Nat) (offset_columns : List String) (h : AllStreamInv streams) :
    AllStreamInv (writeData g minB maxB subs skipOffsets values
      index_offset offset_columns streams) := by
  rw [writeData]
  cases hout : writeDataLoopFuel values.length g minB maxB subs skipOffsets values
      index_offset 0 streams with
  | none => simpa using h
  | some out =>
    simpa using allInv_writeDataLoopFuel _ g minB maxB subs skipOffsets
      values index_offset 0 h hout

theorem allInv_runWriteDataCalls {streams : Streams}
    (calls : List WriteDataCall) (h : AllStreamInv streams) :
    AllStreamInv (runWriteDataCalls calls streams) := by
  induction calls generalizing streams with
  | nil => exact h
  | cons c rest ih =>
    exact ih (allInv_writeData c.g c.minB c.maxB c.subs c.skipOffsets c.values
      c.index_offset [] h)

theorem lookupStream_mem {streams : Streams} {nm : String} {cs : ColumnStream}
    (h : lookupStream streams nm = some cs) : (nm, cs) ∈ streams := by
  induction streams with
  | nil => cases h
  | cons p rest ih =>
    obtain ⟨k, v⟩ := p
    rw [lookupStream] at h
    by_cases hk : k = nm
    · rw [if_pos hk] at h
      cases h
      subst hk
      exact List.mem_cons_self _ _
    · rw [if_neg hk] at h
      exact List.mem_cons_of_mem _ (ih h)

theorem granuleStarts_head (g index_offset size prevMark : Nat) :
    granuleStarts g index_offset size prevMark = [] ∨
    ∃ t, granuleStarts g index_offset size prevMark = prevMark :: t := by
  rw [granuleStarts]
  by_cases h : prevMark < size
  · rw [dif_pos h]
    by_cases hc : prevMark = 0 ∧ index_offset ≠ 0
    · rw [dif_pos hc]
      exact Or.inr ⟨_, rfl⟩
    · rw [dif_neg hc]
      by_cases hg : 0 < g
      · rw [dif_pos hg]
        exact Or.inr ⟨_, rfl⟩
      · rw [dif_neg hg]
        exact Or.inr ⟨_, rfl⟩
  · rw [dif_neg h]
    exact Or.inl rfl

theorem zipWith_append_lengths (i n : Nat) (ics kcs : List (List Nat))
    (h : ∀ ic ∈ ics, ic.length = n) :
    ∀ ic ∈ List.zipWith (fun ic kc => ic ++ [kc.getD i 0]) ics kcs, ic.length = n + 1 := by
  induction ics generalizing kcs with
  | nil => intro ic hic; cases hic
  | cons a rest ih =>
    cases kcs with
    | nil => intro ic hic; cases hic
    | cons b krest =>
      intro ic hic
      rcases List.mem_cons.mp hic with h1 | h1
      · subst h1
        simp [h a (List.mem_cons_self _ _)]
      · exact ih krest (fun x hx => h x (List.mem_cons_of_mem _ hx)) ic h1

theorem zipWith_append_eq_nil (i : Nat) (ics kcs : List (List Nat))
    (h : List.zipWith (fun ic kc => ic ++ [kc.getD i 0]) ics kcs = []) :
    ics = [] ∨ kcs = [] := by
  cases ics with
  | nil => exact Or.inl rfl
  | cons a rest =>
    cases kcs with
    | nil => exact Or.inr rfl
    | cons b krest => cases h

theorem foldSamples_inv (keyCols : List (List Nat)) (samples : List Nat)
    (st : IndexState) (h : ∀ ic ∈ st.index_columns, ic.length = st.marks_count) :
    (∀ ic ∈ (samples.foldl (fun s i => indexSampleStep false keyCols i s) st).index_columns,
       ic.length =
         (samples.foldl (fun s i => indexSampleStep false keyCols i s) st).marks_count) ∧
    ((samples.foldl (fun s i => indexSampleStep false keyCols i s) st).index_columns = [] →
       st.index_columns = [] ∨ keyCols = []) := by
  induction samples generalizing st with
  | nil => exact ⟨h, fun h1 => Or.inl h1⟩
  | cons i rest ih =>
    simp only [List.foldl_cons]
    have hstep : ∀ ic ∈ (indexSampleStep false keyCols i st).index_columns,
        ic.length = (indexSampleStep false keyCols i st).marks_count := by
      simp only [indexSampleStep, Bool.false_eq_true, if_false]
      exact zipWith_append_lengths i st.marks_count st.index_columns keyCols h
    obtain ⟨h1, h2⟩ := ih (indexSampleStep false keyCols i st) hstep
    refine ⟨h1, fun hnil => ?_⟩
    rcases h2 hnil with h3 | h3
    · simp only [indexSampleStep, Bool.false_eq_true, if_false] at h3
      exact zipWith_append_eq_nil i _ _ h3
    · exact Or.inr h3

theorem writeIndexBlock_inv (g rows : Nat) (keyCols : List (List Nat))
    (ist : IndexState)
    (h1 : ∀ ic ∈ ist.index_columns, ic.length = ist.marks_count)
    (h2 : ist.index_columns = [] → ist.marks_count = 0 ∨ keyCols = []) :
    (∀ ic ∈ (writeIndexBlock g false keyCols rows ist).index_columns,
       ic.length = (writeIndexBlock g false keyCols rows ist).marks_count) ∧
    ((writeIndexBlock g false keyCols rows ist).index_columns = [] → keyCols = []) := by
  have h0 : ∀ ic ∈ (if ist.index_columns.isEmpty then keyCols.map (fun _ => ([] : List Nat))
      else ist.index_columns), ic.length = ist.marks_count := by
    by_cases he : ist.index_columns.isEmpty
    · simp only [he, if_true]
      intro ic hic
      obtain ⟨x, hx, rfl⟩ := List.mem_map.mp hic
      rcases h2 (List.isEmpty_iff.mp he) with hm | hk
      · simp [hm]
      · subst hk
        cases hx
    · simp only [he, if_false]
      exact h1
  obtain ⟨ha, hb⟩ := foldSamples_inv keyCols (sampleIndices g rows ist.index_offset)
    { ist with
      index_columns := if ist.index_columns.isEmpty then keyCols.map (fun _ => [])
        else ist.index_columns } h0
  refine ⟨fun ic hic => ha ic hic, fun hnil => ?_⟩
  rcases hb hnil with h3 | h3
  · by_cases he : ist.index_columns.isEmpty
    · have h4 : keyCols.map (fun _ => ([] : List Nat)) = [] := by
        have h5 : ({ ist with
            index_columns := if ist.index_columns.isEmpty then keyCols.map (fun _ => [])
              else ist.index_columns } : IndexState).index_columns
            = keyCols.map (fun _ => []) := by
          simp [he]
        rw [h5] at h3
        exact h3
      exact List.map_eq_nil_iff.mp h4
    · exfalso
      have h5 : ({ ist with
          index_columns := if ist.index_columns.isEmpty then keyCols.map (fun _ => [])
            else ist.index_columns } : IndexState).index_columns
          = ist.index_columns := by
        simp [he]
      rw [h5] at h3
      exact he (by simp [h3])
  · exact h3

theorem resolvePrimaryGo_length (block : Block) (perm : Option (List Nat)) :
    ∀ (sd : List SortColumnDescription) (pcs : List ColumnWithTypeAndName)
      (m : List (String × Nat)) (pcs' : List ColumnWithTypeAndName)
      (m' : List (String × Nat)),
      resolvePrimaryGo block perm sd pcs m = .ok (pcs', m') →
      pcs'.length = pcs.length + sd.length := by
  intro sd
  induction sd with
  | nil =>
    intro pcs m pcs' m' h
    rw [resolvePrimaryGo] at h
    cases h
    simp
  | cons d rest ih =>
    intro pcs m pcs' m' h
    rw [resolvePrimaryGo] at h
    cases hne : (if d.column_name ≠ "" then Except.ok d.column_name
        else
          match safeGetByPosition block d.column_number with
          | some c => Except.ok c.name
          | none => Except.error Err.POSITION_OUT_OF_BOUND : Except Err String) with
    | error e => rw [hne] at h; cases h
    | ok nm =>
      rw [hne] at h
      dsimp only at h
      by_cases hdup : (m.lookup nm).isSome
      · rw [if_pos hdup] at h; cases h
      · rw [if_neg hdup] at h
        cases hfetch : (if d.column_name ≠ "" then getByName block d.column_name
            else safeGetByPosition block d.column_number) with
        | none => rw [hfetch] at h; cases h
        | some c0 =>
          rw [hfetch] at h
          have := ih _ _ _ _ h
          simp only [List.length_append, List.length_cons, List.length_nil] at this
          simp only [List.length_cons]
          omega

theorem writeImpl_ok_index_inv (cfg : Cfg) (cl : List String)
    (st s' : MergedBlockOutputStream) (b : Block) (p : Option (List Nat))
    (hu : cfg.unsorted = false)
    (hok : writeImpl cfg cl st b p = .ok s')
    (h1 : ∀ ic ∈ st.index_columns, ic.length = st.marks_count)
    (h2 : st.index_columns = [] → st.marks_count = 0 ∨ cfg.sort_description = []) :
    (∀ ic ∈ s'.index_columns, ic.length = s'.marks_count) ∧
    (s'.index_columns = [] → s'.marks_count = 0 ∨ cfg.sort_description = []) := by
  rw [writeImpl] at hok
  by_cases hchk : checkNumberOfRows b = false
  · rw [if_pos hchk] at hok
    cases hok
  · rw [if_neg hchk] at hok
    cases hres : resolvePrimary cfg.sort_description b p with
    | error e =>
      rw [hres] at hok
      cases hok
    | ok pr =>
      obtain ⟨pcs, n2p⟩ := pr
      rw [hres] at hok
      dsimp only at hok
      cases hw : writeAllColumns cfg cl b p pcs n2p st.index_offset [] st.streams with
      | error e =>
        rw [hw] at hok
        cases hok
      | ok streams1 =>
        rw [hw] at hok
        dsimp only at hok
        injection hok with hh
        subst hh
        have hlen : pcs.length = cfg.sort_description.length := by
          have := resolvePrimaryGo_length b p cfg.sort_description [] [] pcs n2p hres
          simpa using this
        have h2' : st.index_columns = [] →
            st.marks_count = 0 ∨ pcs.map (fun c => c.values) = [] := by
          intro hnil
          rcases h2 hnil with hm | hsd
          · exact Or.inl hm
          · refine Or.inr ?_
            have hp : pcs = [] := by
              rw [← List.length_eq_zero, hlen, hsd]
              rfl
            rw [hp]
            rfl
        obtain ⟨hA, hB⟩ := writeIndexBlock_inv cfg.index_granularity (blockRows b)
          (pcs.map (fun c => c.values))
          ⟨st.marks_count, st.index_offset, st.index_columns, st.indexBytes⟩ h1 h2'
        rw [hu] at *
        refine ⟨hA, fun hnil => ?_⟩
        have hk := hB hnil
        refine Or.inr ?_
        have hp : pcs = [] := List.map_eq_nil_iff.mp hk
        rw [← List.length_eq_zero, ← hlen, hp]
        rfl

theorem sampleIndicesFuel_congr (g rows : Nat) :
    ∀ (f1 f2 i : Nat), rows - i ≤ f1 → rows - i ≤ f2 →
      sampleIndicesFuel f1 g rows i = sampleIndicesFuel f2 g rows i := by
  intro f1
  induction f1 with
  | zero =>
    intro f2 i h1 h2
    cases f2 with
    | zero => rfl
    | succ f2 =>
      rw [sampleIndicesFuel, sampleIndicesFuel]
      rw [if_neg (by omega : ¬(i < rows ∧ 0 < g))]
  | succ f1 ih =>
    intro f2 i h1 h2
    cases f2 with
    | zero =>
      rw [sampleIndicesFuel, sampleIndicesFuel]
      rw [if_neg (by omega : ¬(i < rows ∧ 0 < g))]
    | succ f2 =>
      rw [sampleIndicesFuel, sampleIndicesFuel]
      by_cases hc : i < rows ∧ 0 < g
      · rw [if_pos hc, if_pos hc]
        have := ih f2 (i + g) (by omega) (by omega)
        rw [this]
      · rw [if_neg hc, if_neg hc]

theorem sampleIndices_unfold (g rows i : Nat) :
    sampleIndices g rows i
      = if i < rows ∧ 0 < g then i :: sampleIndices g rows (i + g) else [] := by
  by_cases hc : i < rows ∧ 0 < g
  · rw [if_pos hc]
    rw [sampleIndices]
    cases hr : rows with
    | zero => omega
    | succ r =>
      subst hr
      rw [sampleIndicesFuel, if_pos (show i < r + 1 ∧ 0 < g by omega)]
      have h1 : sampleIndicesFuel r g (r + 1) (i + g)
          = sampleIndicesFuel (r + 1) g (r + 1) (i + g) :=
        sampleIndicesFuel_congr g (r + 1) r (r + 1) (i + g) (by omega) (by omega)
      rw [h1]
      rfl
  · rw [if_neg hc]
    rw [sampleIndices]
    cases rows with
    | zero => rfl
    | succ r =>
      rw [sampleIndicesFuel, if_neg hc]

theorem sampleIndices_nil_of_ge (g rows i : Nat) (h : rows ≤ i) :
    sampleIndices g rows i = [] := by
  rw [sampleIndices_unfold, if_neg (by omega : ¬(i < rows ∧ 0 < g))]

theorem sampleIndices_rebase (g : Nat) :
    ∀ (n rows i s : Nat), rows - i ≤ n → s ≤ i →
      sampleIndices g rows i = (sampleIndices g (rows - s) (i - s)).map (· + s) := by
  intro n
  induction n with
  | zero =>
    intro rows i s h1 h2
    rw [sampleIndices_nil_of_ge g rows i (by omega),
      sampleIndices_nil_of_ge g (rows - s) (i - s) (by omega)]
    rfl
  | succ n ih =>
    intro rows i s h1 h2
    rw [sampleIndices_unfold g rows i, sampleIndices_unfold g (rows - s) (i - s)]
    by_cases hc : i < rows ∧ 0 < g
    · rw [if_pos hc, if_pos (by omega : i - s < rows - s ∧ 0 < g)]
      have hrec := ih rows (i + g) s (by omega) (by omega)
      rw [hrec]
      simp only [List.map_cons, List.cons.injEq]
      refine ⟨by omega, ?_⟩
      have : i + g - s = i - s + g := by omega
      rw [this]
    · rw [if_neg hc, if_neg (by omega : ¬(i - s < rows - s ∧ 0 < g))]
      rfl

theorem sampleIndices_lt (g : Nat) :
    ∀ (rows i : Nat), ∀ x ∈ sampleIndices g rows i, x < rows := by
  intro rows
  suffices H : ∀ (n i : Nat), rows - i ≤ n → ∀ x ∈ sampleIndices g rows i, x < rows by
    intro i
    exact H rows i (Nat.sub_le _ _)
  intro n
  induction n with
  | zero =>
    intro i h x hx
    rw [sampleIndices_nil_of_ge g rows i (by omega)] at hx
    cases hx
  | succ n ih =>
    intro i h x hx
    rw [sampleIndices_unfold] at hx
    by_cases hc : i < rows ∧ 0 < g
    · rw [if_pos hc] at hx
      rcases List.mem_cons.mp hx with h1 | h1
      · omega
      · exact ih (i + g) (by omega) x h1
    · rw [if_neg hc] at hx
      cases hx

theorem nextIndexOffset_lt (g off rows : Nat) (hg : 0 < g) :
    nextIndexOffset g off rows < g :=
  Nat.mod_lt _ hg

theorem nextIndexOffset_of_le (g off r : Nat) (hg : 0 < g) (hr : r ≤ off) (hoff : off < g) :
    nextIndexOffset g off r = off - r := by
  rw [nextIndexOffset, writtenForLastMark]
  have h1 : g - off + r = g - (off - r) := by omega
  rw [h1]
  by_cases he : off - r = 0
  · rw [he]
    simp
  · have h2 : (g - (off - r)) % g = g - (off - r) := Nat.mod_eq_of_lt (by omega)
    rw [h2]
    have h3 : g - (g - (off - r)) = off - r := by omega
    rw [h3]
    exact Nat.mod_eq_of_lt (by omega)

theorem nextIndexOffset_of_mid (g off r : Nat) (hoff : off < r) (hr : r < g) :
    nextIndexOffset g off r = off + g - r := by
  rw [nextIndexOffset, writtenForLastMark]
  have h1 : g - off + r = g + (r - off) := by omega
  rw [h1]
  have h2 : (g + (r - off)) % g = (r - off) % g := Nat.add_mod_left g (r - off)
  rw [h2]
  have h3 : (r - off) % g = r - off := Nat.mod_eq_of_lt (by omega)
  rw [h3]
  have h4 : g - (r - off) = off + g - r := by omega
  rw [h4]
  exact Nat.mod_eq_of_lt (by omega)

theorem nextIndexOffset_reduce (g off r : Nat) (hg : 0 < g) (hr : g ≤ r) (hoff : off ≤ g) :
    nextIndexOffset g off r = nextIndexOffset g off (r - g) := by
  rw [nextIndexOffset, nextIndexOffset, writtenForLastMark, writtenForLastMark]
  have h1 : g - off + r = (g - off + (r - g)) + g := by omega
  rw [h1]
  have h2 : (g - off + (r - g) + g) % g = (g - off + (r - g)) % g :=
    Nat.add_mod_right _ g
  rw [h2]

theorem nextIndexOffset_comp (g off r1 r2 : Nat) (hg : 0 < g) (hoff : off < g) :
    nextIndexOffset g (nextIndexOffset g off r1) r2 = nextIndexOffset g off (r1 + r2) := by
  rw [nextIndexOffset, nextIndexOffset, nextIndexOffset,
    writtenForLastMark, writtenForLastMark, writtenForLastMark]
  obtain ⟨q, hq⟩ : ∃ q, g - off + r1 = g * q + (g - off + r1) % g :=
    ⟨(g - off + r1) / g, by have := Nat.div_add_mod (g - off + r1) g; omega⟩
  have hwlt : (g - off + r1) % g < g := Nat.mod_lt _ hg
  by_cases hz : (g - off + r1) % g = 0
  · have e1 : (g - (g - off + r1) % g) % g = 0 := by
      rw [hz]
      simp
    rw [e1]
    have e2 : g - 0 + r2 = g + r2 := by omega
    rw [e2]
    have e3 : (g + r2) % g = r2 % g := Nat.add_mod_left g r2
    rw [e3]
    have e4 : (g - off + (r1 + r2)) % g = r2 % g := by
      have h5 : g - off + (r1 + r2) = g * q + r2 := by omega
      rw [h5, Nat.mul_add_mod]
    rw [e4]
  · have e1 : (g - (g - off + r1) % g) % g = g - (g - off + r1) % g :=
      Nat.mod_eq_of_lt (by omega)
    rw [e1]
    have e2 : g - (g - (g - off + r1) % g) + r2 = (g - off + r1) % g + r2 := by omega
    rw [e2]
    have e3 : (g - off + (r1 + r2)) % g = ((g - off + r1) % g + r2) % g := by
      have h5 : g - off + (r1 + r2) = g * q + ((g - off + r1) % g + r2) := by omega
      rw [h5, Nat.mul_add_mod]
    rw [e3]

theorem sampleIndices_split (g : Nat) :
    ∀ (r1 r2 off : Nat), 0 < g → off < g →
    sampleIndices g (r1 + r2) off
      = sampleIndices g r1 off
        ++ (sampleIndices g r2 (nextIndexOffset g off r1)).map (· + r1) := by
  intro r1
  induction r1 using Nat.strong_induction_on with
  | _ r1 ih =>
    intro r2 off hg hoff
    by_cases hle : r1 ≤ off
    · rw [sampleIndices_nil_of_ge g r1 off hle, List.nil_append,
        nextIndexOffset_of_le g off r1 hg hle hoff]
      have h2 := sampleIndices_rebase g (r1 + r2) (r1 + r2) off r1 (Nat.sub_le _ _) hle
      rw [h2]
      have h3 : r1 + r2 - r1 = r2 := by omega
      rw [h3]
    · by_cases hr1g : r1 < g
      · rw [sampleIndices_unfold g (r1 + r2) off,
          if_pos (show off < r1 + r2 ∧ 0 < g by omega)]
        rw [sampleIndices_unfold g r1 off, if_pos (show off < r1 ∧ 0 < g by omega)]
        rw [sampleIndices_nil_of_ge g r1 (off + g) (by omega)]
        rw [nextIndexOffset_of_mid g off r1 (by omega) hr1g]
        have h2 := sampleIndices_rebase g (r1 + r2) (r1 + r2) (off + g) r1
          (Nat.sub_le _ _) (by omega)
        rw [h2]
        have h3 : r1 + r2 - r1 = r2 := by omega
        rw [h3]
        simp
      · rw [sampleIndices_unfold g (r1 + r2) off,
          if_pos (show off < r1 + r2 ∧ 0 < g by omega)]
        rw [sampleIndices_unfold g r1 off, if_pos (show off < r1 ∧ 0 < g by omega)]
        have e1 : sampleIndices g (r1 + r2) (off + g)
            = (sampleIndices g (r1 + r2 - g) off).map (· + g) := by
          have h2 := sampleIndices_rebase g (r1 + r2) (r1 + r2) (off + g) g
            (Nat.sub_le _ _) (by omega)
          have h3 : off + g - g = off := by omega
          rw [h3] at h2
          exact h2
        have e2 : sampleIndices g r1 (off + g)
            = (sampleIndices g (r1 - g) off).map (· + g) := by
          have h2 := sampleIndices_rebase g r1 r1 (off + g) g (Nat.sub_le _ _) (by omega)
          have h3 : off + g - g = off := by omega
          rw [h3] at h2
          exact h2
        have e3 : r1 + r2 - g = (r1 - g) + r2 := by omega
        rw [e1, e3, ih (r1 - g) (by omega) r2 off hg hoff, e2,
          nextIndexOffset_reduce g off r1 hg (by omega) (by omega)]
        rw [List.map_append, List.map_map, List.cons_append, List.cons.injEq]
        refine ⟨rfl, ?_⟩
        congr 1
        apply List.map_congr_left
        intro a ha
        simp only [Function.comp_apply]
        omega

theorem foldSamples_eq_components (u : Bool) (kcs : List (List Nat)) :
    ∀ (samples : List Nat) (st : IndexState),
      samples.foldl (fun s i => indexSampleStep u kcs i s) st
        = { marks_count := st.marks_count + samples.length
            index_offset := st.index_offset
            index_columns := icsFold u kcs samples st.index_columns
            indexBytes := st.indexBytes ++ bytesFold u kcs samples } := by
  intro samples
  induction samples with
  | nil =>
    intro st
    simp [icsFold, bytesFold]
  | cons i rest ih =>
    intro st
    rw [List.foldl_cons, ih]
    cases u with
    | false =>
      simp only [indexSampleStep, Bool.false_eq_true, if_false, icsFold, bytesFold,
        List.append_assoc, IndexState.mk.injEq, List.length_cons]
      exact ⟨by omega, trivial, trivial, trivial⟩
    | true =>
      simp only [indexSampleStep, if_true, icsFold, bytesFold, List.append_assoc,
        IndexState.mk.injEq, List.nil_append, List.length_cons]
      exact ⟨by omega, trivial, trivial, trivial⟩

theorem zipWith_append_congr2 (i i' : Nat) :
    ∀ (kcs kcs' ics : List (List Nat)),
      kcs.map (fun kc => kc.getD i 0) = kcs'.map (fun kc => kc.getD i' 0) →
      List.zipWith (fun ic kc => ic ++ [kc.getD i 0]) ics kcs
        = List.zipWith (fun ic kc => ic ++ [kc.getD i' 0]) ics kcs' := by
  intro kcs
  induction kcs with
  | nil =>
    intro kcs' ics h
    have h2 : kcs' = [] := List.map_eq_nil_iff.mp h.symm
    subst h2
    simp
  | cons b rest ih =>
    intro kcs' ics h
    cases kcs' with
    | nil => simp at h
    | cons b2 rest2 =>
      simp only [List.map_cons, List.cons.injEq] at h
      cases ics with
      | nil => simp
      | cons a irest =>
        simp only [List.zipWith_cons_cons]
        rw [h.1, ih rest2 irest h.2]

theorem icsFold_congr (u : Bool) (kcs kcs' : List (List Nat)) (f : Nat → Nat) :
    ∀ (samples : List Nat),
      (∀ x ∈ samples, kcs.map (fun kc => kc.getD (f x) 0)
        = kcs'.map (fun kc => kc.getD x 0)) →
      ∀ ics, icsFold u kcs (samples.map f) ics = icsFold u kcs' samples ics := by
  intro samples
  induction samples with
  | nil => intro h ics; rfl
  | cons x rest ih =>
    intro h ics
    simp only [List.map_cons, icsFold]
    cases u with
    | true =>
      simp only [if_true]
      exact ih (fun y hy => h y (List.mem_cons_of_mem _ hy)) ics
    | false =>
      simp only [Bool.false_eq_true, if_false]
      rw [zipWith_append_congr2 (f x) x kcs kcs' ics (h x (List.mem_cons_self _ _))]
      exact ih (fun y hy => h y (List.mem_cons_of_mem _ hy)) _

theorem bytesFold_congr (u : Bool) (kcs kcs' : List (List Nat)) (f : Nat → Nat) :
    ∀ (samples : List Nat),
      (∀ x ∈ samples, kcs.map (fun kc => kc.getD (f x) 0)
        = kcs'.map (fun kc => kc.getD x 0)) →
      bytesFold u kcs (samples.map f) = bytesFold u kcs' samples := by
  intro samples
  induction samples with
  | nil => intro h; rfl
  | cons x rest ih =>
    intro h
    simp only [List.map_cons, bytesFold]
    rw [h x (List.mem_cons_self _ _), ih (fun y hy => h y (List.mem_cons_of_mem _ hy))]

theorem bytesFold_append (u : Bool) (kcs : List (List Nat)) :
    ∀ (s1 s2 : List Nat),
      bytesFold u kcs (s1 ++ s2) = bytesFold u kcs s1 ++ bytesFold u kcs s2 := by
  intro s1 s2
  induction s1 with
  | nil => simp [bytesFold]
  | cons x rest ih =>
    simp only [List.cons_append, bytesFold, List.append_eq, ih, List.append_assoc]

theorem icsFold_append (u : Bool) (kcs : List (List Nat)) :
    ∀ (s1 s2 : List Nat) (ics : List (List Nat)),
      icsFold u kcs (s1 ++ s2) ics = icsFold u kcs s2 (icsFold u kcs s1 ics) := by
  intro s1
  induction s1 with
  | nil => intro s2 ics; rfl
  | cons x rest ih =>
    intro s2 ics
    simp only [List.cons_append, icsFold, List.append_eq]
    rw [ih]

theorem icsFold_nil_cases (u : Bool) (kcs : List (List Nat)) :
    ∀ (samples : List Nat) (ics : List (List Nat)),
      icsFold u kcs samples ics = [] → ics = [] ∨ kcs = [] := by
  intro samples
  induction samples with
  | nil => intro ics h; exact Or.inl h
  | cons x rest ih =>
    intro ics h
    rw [icsFold] at h
    cases u with
    | true =>
      simp only [if_true] at h
      exact ih ics h
    | false =>
      simp only [Bool.false_eq_true, if_false] at h
      rcases ih _ h with h1 | h1
      · cases ics with
        | nil => exact Or.inl rfl
        | cons a irest =>
          cases kcs with
          | nil => exact Or.inr rfl
          | cons b krest => cases h1
      · exact Or.inr h1

theorem zip_cols_getD_left (r1 x : Nat) (hx : x < r1) :
    ∀ (cols1 cols2 : List (List Nat)),
      (∀ c ∈ cols1, c.length = r1) → cols1.length = cols2.length →
      (List.zipWith (· ++ ·) cols1 cols2).map (fun kc => kc.getD x 0)
        = cols1.map (fun kc => kc.getD x 0) := by
  intro cols1
  induction cols1 with
  | nil => intro cols2 h hl; simp
  | cons c1 rest ih =>
    intro cols2 h hl
    cases cols2 with
    | nil => simp at hl
    | cons c2 rest2 =>
      simp only [List.zipWith_cons_cons, List.map_cons, List.cons.injEq]
      refine ⟨?_, ih rest2 (fun c hc => h c (List.mem_cons_of_mem _ hc)) (by simpa using hl)⟩
      have hc1 : c1.length = r1 := h c1 (List.mem_cons_self _ _)
      exact List.getD_append _ _ _ _ (by omega)

theorem zip_cols_getD_right (r1 x : Nat) :
    ∀ (cols1 cols2 : List (List Nat)),
      (∀ c ∈ cols1, c.length = r1) → cols1.length = cols2.length →
      (List.zipWith (· ++ ·) cols1 cols2).map (fun kc => kc.getD (x + r1) 0)
        = cols2.map (fun kc => kc.getD x 0) := by
  intro cols1
  induction cols1 with
  | nil =>
    intro cols2 h hl
    have : cols2 = [] := by
      cases cols2 with
      | nil => rfl
      | cons c2 rest2 => simp at hl
    subst this
    simp
  | cons c1 rest ih =>
    intro cols2 h hl
    cases cols2 with
    | nil => simp at hl
    | cons c2 rest2 =>
      simp only [List.zipWith_cons_cons, List.map_cons, List.cons.injEq]
      refine ⟨?_, ih rest2 (fun c hc => h c (List.mem_cons_of_mem _ hc)) (by simpa using hl)⟩
      have hc1 : c1.length = r1 := h c1 (List.mem_cons_self _ _)
      rw [List.getD_append_right _ _ _ _ (by omega)]
      congr 1
      omega

theorem map_const_nil_congr :
    ∀ (l1 l2 : List (List Nat)), l1.length = l2.length →
      l1.map (fun _ => ([] : List Nat)) = l2.map (fun _ => []) := by
  intro l1
  induction l1 with
  | nil =>
    intro l2 h
    cases l2 with
    | nil => rfl
    | cons b r => simp at h
  | cons a r ih =>
    intro l2 h
    cases l2 with
    | nil => simp at h
    | cons b r2 =>
      simp only [List.map_cons, List.cons.injEq]
      exact ⟨trivial, ih r2 (by simpa using h)⟩

theorem icsFold_zip_left (u : Bool) (cols1 cols2 : List (List Nat)) (g r1 off : Nat)
    (hlen1 : ∀ c ∈ cols1, c.length = r1) (hll : cols1.length = cols2.length) :
    ∀ X, icsFold u (List.zipWith (· ++ ·) cols1 cols2) (sampleIndices g r1 off) X
      = icsFold u cols1 (sampleIndices g r1 off) X := by
  intro X
  have h := icsFold_congr u (List.zipWith (· ++ ·) cols1 cols2) cols1 (fun x => x)
    (sampleIndices g r1 off)
    (fun x hx => zip_cols_getD_left r1 x (sampleIndices_lt g r1 off x hx) cols1 cols2
      hlen1 hll) X
  simpa using h

theorem icsFold_zip_right (u : Bool) (cols1 cols2 : List (List Nat)) (r1 : Nat)
    (samples : List Nat)
    (hlen1 : ∀ c ∈ cols1, c.length = r1) (hll : cols1.length = cols2.length) :
    ∀ X, icsFold u (List.zipWith (· ++ ·) cols1 cols2) (samples.map (· + r1)) X
      = icsFold u cols2 samples X :=
  icsFold_congr u (List.zipWith (· ++ ·) cols1 cols2) cols2 (· + r1) samples
    (fun x hx => zip_cols_getD_right r1 x cols1 cols2 hlen1 hll)

theorem bytesFold_zip_left (u : Bool) (cols1 cols2 : List (List Nat)) (g r1 off : Nat)
    (hlen1 : ∀ c ∈ cols1, c.length = r1) (hll : cols1.length = cols2.length) :
    bytesFold u (List.zipWith (· ++ ·) cols1 cols2) (sampleIndices g r1 off)
      = bytesFold u cols1 (sampleIndices g r1 off) := by
  have h := bytesFold_congr u (List.zipWith (· ++ ·) cols1 cols2) cols1 (fun x => x)
    (sampleIndices g r1 off)
    (fun x hx => zip_cols_getD_left r1 x (sampleIndices_lt g r1 off x hx) cols1 cols2
      hlen1 hll)
  simpa using h

theorem bytesFold_zip_right (u : Bool) (cols1 cols2 : List (List Nat)) (r1 : Nat)
    (samples : List Nat)
    (hlen1 : ∀ c ∈ cols1, c.length = r1) (hll : cols1.length = cols2.length) :
    bytesFold u (List.zipWith (· ++ ·) cols1 cols2) (samples.map (· + r1))
      = bytesFold u cols2 samples :=
  bytesFold_congr u (List.zipWith (· ++ ·) cols1 cols2) cols2 (· + r1) samples
    (fun x hx => zip_cols_getD_right r1 x cols1 cols2 hlen1 hll)

theorem ite_isEmpty_collapse (u : Bool) (cols1 cols2 : List (List Nat)) (g r1 off : Nat)
    (initIcs : List (List Nat))
    (hll : cols1.length = cols2.length)
    (hinit : initIcs = [] → cols1 = []) :
    (if (icsFold u cols1 (sampleIndices g r1 off) initIcs).isEmpty then
       cols2.map (fun _ => ([] : List Nat))
     else icsFold u cols1 (sampleIndices g r1 off) initIcs)
      = icsFold u cols1 (sampleIndices g r1 off) initIcs := by
  by_cases hYe : (icsFold u cols1 (sampleIndices g r1 off) initIcs).isEmpty
  · have hnil : icsFold u cols1 (sampleIndices g r1 off) initIcs = [] :=
      List.isEmpty_iff.mp hYe
    have hc1 : cols1 = [] := by
      rcases icsFold_nil_cases u cols1 (sampleIndices g r1 off) initIcs hnil with h1 | h1
      · exact hinit h1
      · exact h1
    have hc2 : cols2 = [] := by
      rw [hc1] at hll
      cases cols2 with
      | nil => rfl
      | cons b r => simp at hll
    rw [if_pos hYe, hnil, hc2]
    rfl
  · rw [if_neg hYe]

theorem writeIndexBlock_comp (g : Nat) (u : Bool) (cols1 cols2 : List (List Nat))
    (r1 r2 : Nat) (st : IndexState)
    (hg : 0 < g) (hoff : st.index_offset < g)
    (hlen1 : ∀ c ∈ cols1, c.length = r1)
    (hll : cols1.length = cols2.length) :
    writeIndexBlock g u cols2 r2 (writeIndexBlock g u cols1 r1 st)
      = writeIndexBlock g u (List.zipWith (· ++ ·) cols1 cols2) (r1 + r2) st := by
  have hzlen : (List.zipWith (· ++ ·) cols1 cols2).length = cols1.length := by
    rw [List.length_zipWith]
    omega
  have hinitIcs :
      (if st.index_columns.isEmpty then
        (List.zipWith (· ++ ·) cols1 cols2).map (fun _ => ([] : List Nat))
       else st.index_columns)
      = (if st.index_columns.isEmpty then cols1.map (fun _ => ([] : List Nat))
         else st.index_columns) := by
    by_cases he : st.index_columns.isEmpty
    · rw [if_pos he, if_pos he]
      exact map_const_nil_congr _ _ (by omega)
    · rw [if_neg he, if_neg he]
  have hinit : (if st.index_columns.isEmpty then cols1.map (fun _ => ([] : List Nat))
      else st.index_columns) = [] → cols1 = [] := by
    by_cases he : st.index_columns.isEmpty
    · rw [if_pos he]
      intro h
      exact List.map_eq_nil_iff.mp h
    · rw [if_neg he]
      intro h
      exact absurd h (fun hh => he (by simp [hh]))
  simp only [writeIndexBlock, foldSamples_eq_components]
  rw [sampleIndices_split g r1 r2 st.index_offset hg hoff]
  simp only [IndexState.mk.injEq]
  refine ⟨?_, ?_, ?_, ?_⟩
  · simp only [List.length_append, List.length_map]
    omega
  · exact nextIndexOffset_comp g st.index_offset r1 r2 hg hoff
  · rw [hinitIcs, icsFold_append,
      icsFold_zip_left u cols1 cols2 g r1 st.index_offset hlen1 hll,
      icsFold_zip_right u cols1 cols2 r1 (sampleIndices g r2
        (nextIndexOffset g st.index_offset r1)) hlen1 hll,
      ite_isEmpty_collapse u cols1 cols2 g r1 st.index_offset _ hll hinit]
  · rw [bytesFold_append,
      bytesFold_zip_left u cols1 cols2 g r1 st.index_offset hlen1 hll,
      bytesFold_zip_right u cols1 cols2 r1 (sampleIndices g r2
        (nextIndexOffset g st.index_offset r1)) hlen1 hll,
      List.append_assoc]

theorem writeIndexBlock_offset (g : Nat) (u : Bool) (kcs : List (List Nat))
    (rows : Nat) (st : IndexState) :
    (writeIndexBlock g u kcs rows st).index_offset
      = nextIndexOffset g st.index_offset rows := by
  simp only [writeIndexBlock, foldSamples_eq_components]

theorem chunksFold_eq (g : Nat) (u : Bool) :
    ∀ (szs : List Nat) (cols : List (List Nat)) (n : Nat) (st : IndexState),
      szs ≠ [] → 0 < g → st.index_offset < g →
      (∀ c ∈ cols, c.length = n) → szs.sum = n →
      foldIndexChunks g u (chunksOf szs cols) st = writeIndexBlock g u cols n st := by
  intro szs
  induction szs with
  | nil =>
    intro cols n st hne
    exact absurd rfl hne
  | cons sz rest ih =>
    intro cols n st hne hg hoff hcl hsum
    cases rest with
    | nil =>
      simp only [chunksOf, foldIndexChunks, List.foldl_cons, List.foldl_nil]
      have hsz : sz = n := by simpa using hsum
      subst hsz
      have hmap : cols.map (fun c => c.take sz) = cols := by
        conv_rhs => rw [← List.map_id cols]
        apply List.map_congr_left
        intro c hc
        have hcc : c.length = sz := hcl c hc
        rw [← hcc]
        exact List.take_length c
      rw [hmap]
    | cons sz2 rest2 =>
      have hszle : sz ≤ n := by
        simp only [List.sum_cons] at hsum
        omega
      have hstep : foldIndexChunks g u (chunksOf (sz :: sz2 :: rest2) cols) st
          = foldIndexChunks g u (chunksOf (sz2 :: rest2) (cols.map (fun c => c.drop sz)))
              (writeIndexBlock g u (cols.map (fun c => c.take sz)) sz st) := rfl
      have hih := ih (cols.map (fun c => c.drop sz)) (n - sz)
        (writeIndexBlock g u (cols.map (fun c => c.take sz)) sz st)
        (by simp) hg
        (by rw [writeIndexBlock_offset]; exact nextIndexOffset_lt g _ _ hg)
        (by
          intro c hc
          obtain ⟨c0, hc0, rfl⟩ := List.mem_map.mp hc
          rw [List.length_drop, hcl c0 hc0])
        (by
          simp only [List.sum_cons] at hsum ⊢
          omega)
      rw [hstep, hih]
      have hcomp := writeIndexBlock_comp g u (cols.map (fun c => c.take sz))
        (cols.map (fun c => c.drop sz)) sz (n - sz) st hg hoff
        (by
          intro c hc
          obtain ⟨c0, hc0, rfl⟩ := List.mem_map.mp hc
          rw [List.length_take, hcl c0 hc0]
          omega)
        (by simp)
      rw [hcomp]
      have hzip : List.zipWith (· ++ ·) (cols.map (fun c => c.take sz))
          (cols.map (fun c => c.drop sz)) = cols := by
        rw [List.zipWith_map, List.zipWith_same]
        conv_rhs => rw [← List.map_id cols]
        apply List.map_congr_left
        intro c hc
        exact List.take_append_drop sz c
      rw [hzip]
      have hn : sz + (n - sz) = n := by omega
      rw [hn]

theorem permuteVals_length (p vs : List Nat) : (permuteVals p vs).length = vs.length := by
  simp [permuteVals]

theorem permuteColumn_name (p : List Nat) (c : ColumnWithTypeAndName) :
    (permuteColumn p c).name = c.name := rfl

theorem getByName_permuteBlock (p : List Nat) (b : Block) (nm : String) :
    getByName (permuteBlock p b) nm = (getByName b nm).map (permuteColumn p) := by
  rw [getByName, permuteBlock, List.find?_map]
  rfl

theorem safeGetByPosition_permuteBlock (p : List Nat) (b : Block) (i : Nat) :
    safeGetByPosition (permuteBlock p b) i
      = (safeGetByPosition b i).map (permuteColumn p) := by
  rw [safeGetByPosition, permuteBlock, List.get?_map]
  rfl

theorem checkNumberOfRows_permuteBlock (p : List Nat) (b : Block) :
    checkNumberOfRows (permuteBlock p b) = checkNumberOfRows b := by
  cases b with
  | nil => rfl
  | cons c rest =>
    simp [checkNumberOfRows, permuteBlock, List.all_map, permuteColumn, permuteVals_length,
      Function.comp_def]

theorem blockRows_permuteBlock (p : List Nat) (b : Block) :
    blockRows (permuteBlock p b) = blockRows b := by
  cases b with
  | nil => rfl
  | cons c rest => simp [blockRows, permuteBlock, permuteColumn, permuteVals_length]

theorem resolvePrimaryGo_perm (b : Block) (p : List Nat) :
    ∀ (sd : List SortColumnDescription) (pcs : List ColumnWithTypeAndName)
      (m : List (String × Nat)),
      resolvePrimaryGo (permuteBlock p b) none sd pcs m
        = resolvePrimaryGo b (some p) sd pcs m := by
  intro sd
  induction sd with
  | nil => intro pcs m; rfl
  | cons d rest ih =>
    intro pcs m
    rw [resolvePrimaryGo, resolvePrimaryGo]
    by_cases hn : d.column_name ≠ ""
    · simp only [if_pos hn, getByName_permuteBlock]
      by_cases hdup : (m.lookup d.column_name).isSome
      · rw [if_pos hdup, if_pos hdup]
      · rw [if_neg hdup, if_neg hdup]
        cases hf : getByName b d.column_name with
        | none => rfl
        | some c0 =>
          simp only [Option.map_some']
          exact ih (pcs ++ [permuteColumn p c0]) (m ++ [(d.column_name, pcs.length)])
    · simp only [if_neg hn, safeGetByPosition_permuteBlock]
      cases hf : safeGetByPosition b d.column_number with
      | none => rfl
      | some c0 =>
        simp only [Option.map_some', permuteColumn_name]
        by_cases hdup : (m.lookup c0.name).isSome
        · rw [if_pos hdup, if_pos hdup]
        · rw [if_neg hdup, if_neg hdup]
          exact ih (pcs ++ [permuteColumn p c0]) (m ++ [(c0.name, pcs.length)])

theorem getByName_of_get? :
    ∀ (b : Block), (b.map (fun c => c.name)).Nodup →
      ∀ (k : Nat) (c : ColumnWithTypeAndName),
        b.get? k = some c → getByName b c.name = some c := by
  intro b
  induction b with
  | nil => intro _ k c h; cases h
  | cons a rest ih =>
    intro hnodup k c h
    cases k with
    | zero =>
      rw [List.get?] at h
      injection h with h
      subst h
      rw [getByName, List.find?_cons_of_pos _ (by simp)]
    | succ k =>
      rw [List.get?] at h
      have hmem : c ∈ rest := List.get?_mem h
      simp only [List.map_cons, List.nodup_cons] at hnodup
      have hna : ¬(a.name = c.name) := by
        intro he
        exact hnodup.1 (he ▸ List.mem_map_of_mem (fun c => c.name) hmem)
      rw [getByName, List.find?_cons_of_neg _ (by simp [hna])]
      exact ih hnodup.2 k c h

theorem mem_of_lookup_some {l : List (String × Nat)} {k : String} {v : Nat}
    (h : l.lookup k = some v) : (k, v) ∈ l := by
  obtain ⟨l1, l2, rfl, -⟩ := List.lookup_eq_some_iff.mp h
  simp

theorem resolvePrimaryGo_entries (b : Block) (p : List Nat)
    (hnodup : (b.map (fun c => c.name)).Nodup) :
    ∀ (sd : List SortColumnDescription) (pcs : List ColumnWithTypeAndName)
      (m : List (String × Nat)) (pcs' : List ColumnWithTypeAndName)
      (m' : List (String × Nat)),
      resolvePrimaryGo b (some p) sd pcs m = .ok (pcs', m') →
      (∀ e ∈ m, e.2 < pcs.length ∧ ∃ c0, getByName b e.1 = some c0 ∧
        pcs.getD e.2 dfltColumn = permuteColumn p c0) →
      ∀ e ∈ m', e.2 < pcs'.length ∧ ∃ c0, getByName b e.1 = some c0 ∧
        pcs'.getD e.2 dfltColumn = permuteColumn p c0 := by
  intro sd
  induction sd with
  | nil =>
    intro pcs m pcs' m' h hinv
    rw [resolvePrimaryGo] at h
    injection h with h2
    injection h2 with ha hb
    subst ha
    subst hb
    exact hinv
  | cons d rest ih =>
    intro pcs m pcs' m' h hinv
    rw [resolvePrimaryGo] at h
    by_cases hdn : d.column_name ≠ ""
    · simp only [if_pos hdn] at h
      by_cases hdup : (m.lookup d.column_name).isSome
      · rw [if_pos hdup] at h
        cases h
      · rw [if_neg hdup] at h
        cases hf : getByName b d.column_name with
        | none =>
          rw [hf] at h
          cases h
        | some c0 =>
          rw [hf] at h
          dsimp only at h
          refine ih _ _ _ _ h ?_
          intro e he
          rcases List.mem_append.mp he with h1 | h1
          · obtain ⟨hlt, cc, hg1, hg2⟩ := hinv e h1
            refine ⟨by simp only [List.length_append, List.length_cons]; omega, cc, hg1, ?_⟩
            rw [List.getD_append _ _ _ _ (by omega)]
            exact hg2
          · simp only [List.mem_singleton] at h1
            subst h1
            refine ⟨by simp, c0, hf, ?_⟩
            rw [List.getD_append_right _ _ _ _ (le_refl _)]
            simp
    · simp only [if_neg hdn] at h
      cases hsp : safeGetByPosition b d.column_number with
      | none =>
        rw [hsp] at h
        cases h
      | some c0 =>
        rw [hsp] at h
        dsimp only at h
        by_cases hdup : (m.lookup c0.name).isSome
        · rw [if_pos hdup] at h
          cases h
        · rw [if_neg hdup] at h
          refine ih _ _ _ _ h ?_
          intro e he
          rcases List.mem_append.mp he with h1 | h1
          · obtain ⟨hlt, cc, hg1, hg2⟩ := hinv e h1
            refine ⟨by simp only [List.length_append, List.length_cons]; omega, cc, hg1, ?_⟩
            rw [List.getD_append _ _ _ _ (by omega)]
            exact hg2
          · simp only [List.mem_singleton] at h1
            subst h1
            refine ⟨by simp, c0, getByName_of_get? b hnodup d.column_number c0 hsp, ?_⟩
            rw [List.getD_append_right _ _ _ _ (le_refl _)]
            simp

theorem writeAllColumns_perm (cfg : Cfg) (b : Block) (p : List Nat)
    (pcs : List ColumnWithTypeAndName) (n2p : List (String × Nat))
    (hent : ∀ e ∈ n2p, ∃ c0, getByName b e.1 = some c0 ∧
      pcs.getD e.2 dfltColumn = permuteColumn p c0) :
    ∀ (cl : List String) (io : Nat) (oc : List String) (streams : Streams),
      writeAllColumns cfg cl (permuteBlock p b) none pcs n2p io oc streams
        = writeAllColumns cfg cl b (some p) pcs n2p io oc streams := by
  intro cl
  induction cl with
  | nil => intro io oc streams; rfl
  | cons nm rest ih =>
    intro io oc streams
    rw [writeAllColumns, writeAllColumns, getByName_permuteBlock]
    cases hg : getByName b nm with
    | none => rfl
    | some c =>
      simp only [Option.map_some']
      cases hlk : n2p.lookup nm with
      | none => exact ih io oc _
      | some pos =>
        obtain ⟨c0, hg0, hpc⟩ := hent (nm, pos) (mem_of_lookup_some hlk)
        rw [hg] at hg0
        injection hg0 with hc
        subst hc
        dsimp only at hpc ⊢
        rw [hpc]
        exact ih io oc _

/-! ## Claim theorems -/

/-- Claim C9: calling the checksum-less `writeSuffix` on either writer
(`MergedBlockOutputStream` or `MergedColumnOnlyOutputStream`) always raises
`NOT_IMPLEMENTED` and performs no finalization: no successor state is ever
produced. -/
theorem c9_writeSuffix_not_implemented :
    (∀ s : MergedBlockOutputStream, s.writeSuffix = .error Err.NOT_IMPLEMENTED) ∧
    (∀ s : MergedColumnOnlyOutputStream, s.writeSuffix = .error Err.NOT_IMPLEMENTED) :=
  ⟨fun _ => rfl, fun _ => rfl⟩

/-- Claim C7: if `marks_count == 0` when `writeSuffixAndGetChecksums` is
called on the full writer, the part directory is removed recursively, every
checksum entry (pre-supplied ones and the `primary.idx` entry included) is
discarded, an empty checksum map is returned, and neither `columns.txt` nor
`checksums.txt` is written. -/
theorem c7_empty_part_removed (cfg : Cfg) (tl : List (String × String))
    (add : Option Checksums) (s : MergedBlockOutputStream) (fs : FS)
    (h : s.marks_count = 0) :
    (writeSuffixAndGetChecksums cfg tl add s fs).1 = [] ∧
    (writeSuffixAndGetChecksums cfg tl add s fs).2.2.dirExists = false ∧
    (writeSuffixAndGetChecksums cfg tl add s fs).2.2.files = [] ∧
    (⟨"columns", ".txt"⟩ : FileName) ∉ (writeSuffixAndGetChecksums cfg tl add s fs).2.2.files ∧
    (⟨"checksums", ".txt"⟩ : FileName) ∉ (writeSuffixAndGetChecksums cfg tl add s fs).2.2.files := by
  simp [writeSuffixAndGetChecksums, h]

theorem c7_empty_part_removed_witness :
    (mkWriter []).marks_count = 0 ∧
    ((writeSuffixAndGetChecksums ⟨4, 100, 1000, false, []⟩ [] none (mkWriter []) ⟨true, []⟩).1 = [] ∧
     (writeSuffixAndGetChecksums ⟨4, 100, 1000, false, []⟩ [] none (mkWriter []) ⟨true, []⟩).2.2.dirExists = false ∧
     (writeSuffixAndGetChecksums ⟨4, 100, 1000, false, []⟩ [] none (mkWriter []) ⟨true, []⟩).2.2.files = [] ∧
     (⟨"columns", ".txt"⟩ : FileName) ∉ (writeSuffixAndGetChecksums ⟨4, 100, 1000, false, []⟩ [] none (mkWriter []) ⟨true, []⟩).2.2.files ∧
     (⟨"checksums", ".txt"⟩ : FileName) ∉ (writeSuffixAndGetChecksums ⟨4, 100, 1000, false, []⟩ [] none (mkWriter []) ⟨true, []⟩).2.2.files) :=
  ⟨rfl, c7_empty_part_removed ⟨4, 100, 1000, false, []⟩ [] none (mkWriter []) ⟨true, []⟩ rfl⟩

/-- Claim C10: with `index_granularity ≥ 1` the granule loop of `writeData`
terminates — every iteration advances `prev_mark` by a positive limit (the
carried `index_offset` on the first iteration when it is nonzero, the
granularity otherwise), so at most `size` iterations of fuel make the
source loop finish, with the total rendering `writeDataGo` as its result;
without that precondition the loop need not terminate: with granularity `0`,
no carried offset and a one-row column, no amount of fuel finishes it. -/
theorem c10_granule_loop_termination :
    (∀ (g minB maxB : Nat) (subs : List Substream) (skipOffsets : Bool)
       (values : List Nat) (index_offset prevMark : Nat) (streams : Streams) (fuel : Nat),
       0 < g → values.length - prevMark ≤ fuel →
       writeDataLoopFuel fuel g minB maxB subs skipOffsets values index_offset prevMark streams
         = some (writeDataGo g minB maxB subs skipOffsets values index_offset prevMark streams)) ∧
    (∀ (minB maxB : Nat) (skipOffsets : Bool) (streams : Streams) (fuel : Nat),
       writeDataLoopFuel fuel 0 minB maxB [] skipOffsets [5] 0 0 streams = none) := by
  constructor
  · intro g minB maxB subs skipOffsets values index_offset prevMark streams fuel
    induction fuel generalizing prevMark streams with
    | zero =>
      intro hg hfuel
      have hge : ¬(prevMark < values.length) := by omega
      rw [writeDataGo]
      simp [writeDataLoopFuel, hge]
    | succ fuel ih =>
      intro hg hfuel
      by_cases h : prevMark < values.length
      · by_cases hc : prevMark = 0 ∧ index_offset ≠ 0
        · have hc2 : index_offset ≠ 0 := hc.2
          rw [writeDataGo]
          rw [dif_pos h, dif_pos hc]
          simp only [writeDataLoopFuel]
          rw [if_pos h, if_pos hc]
          exact ih (prevMark + index_offset) _ hg (by omega)
        · rw [writeDataGo]
          rw [dif_pos h, dif_neg hc, dif_pos hg]
          simp only [writeDataLoopFuel]
          rw [if_pos h, if_neg hc]
          exact ih (prevMark + g) _ hg (by omega)
      · rw [writeDataGo]
        simp [writeDataLoopFuel, h]
  · intro minB maxB skipOffsets streams fuel
    induction fuel generalizing streams with
    | zero => simp [writeDataLoopFuel]
    | succ fuel ih =>
      have : writeDataLoopFuel (fuel + 1) 0 minB maxB [] skipOffsets [5] 0 0 streams
          = writeDataLoopFuel fuel 0 minB maxB [] skipOffsets [5] 0 0
            (nextIfAtEndAll maxB [] skipOffsets
              (serializeGranule maxB [] skipOffsets [5] 0 0
                (writeGranuleMarks minB [] skipOffsets streams))) := by
        simp [writeDataLoopFuel]
      rw [this]
      exact ih _

/-- Claim C5: in `writeData`, before serializing each full-granularity
granule, for every physical substream of the column the current compressed
block is flushed iff its logical offset has reached
`min_compress_block_size`, and then exactly one mark is appended to that
substream's marks stream, as two fixed-width integers — the physical
write-cursor byte count first, the compressed-block logical offset second —
capturing the post-flush, pre-serialization cursor state.  Part one states
this for the per-substream mark step (`writeSingleMark`), part two counts
exactly one mark per active substream across the whole per-granule visitor
(`writeGranuleMarks`). -/
theorem c5_flush_and_mark_per_substream :
    (∀ (minB : Nat) (s : ColumnStream),
      marksFlat (s.writeSingleMark minB)
          = marksFlat s ++ [(s.writeSingleMark minB).plain.length,
                            (s.writeSingleMark minB).buffer.length] ∧
      (s.writeSingleMark minB).marks
          = s.marks ++ [((s.writeSingleMark minB).plain.length,
                         (s.writeSingleMark minB).buffer.length)] ∧
      (s.writeSingleMark minB).buffer
          = (if minB ≤ s.buffer.length then [] else s.buffer) ∧
      (s.writeSingleMark minB).plain
          = (if minB ≤ s.buffer.length ∧ s.buffer ≠ [] then
               s.plain ++ compressFrame s.buffer
             else s.plain) ∧
      (s.writeSingleMark minB).flushed ++ (s.writeSingleMark minB).buffer
          = s.flushed ++ s.buffer) ∧
    (∀ (minB : Nat) (subs : List Substream) (skipOffsets : Bool)
       (streams : Streams) (nm : String),
      (lookupStream (writeGranuleMarks minB subs skipOffsets streams) nm).map
          (fun cs => cs.marks.length)
        = (lookupStream streams nm).map
          (fun cs => cs.marks.length +
            (subs.filter
              (fun sub => subActive skipOffsets sub && (sub.fileName == nm))).length)) := by
  constructor
  · intro minB s
    refine ⟨?_, writeSingleMark_marks minB s, ?_, ?_, ?_⟩
    · rw [marksFlat, writeSingleMark_marks, List.foldr_append, marksFoldr_acc]
      rfl
    · by_cases h1 : minB ≤ s.buffer.length <;>
        by_cases h2 : s.buffer = [] <;>
          simp [ColumnStream.writeSingleMark, ColumnStream.compressedNext, h1, h2]
    · by_cases h1 : minB ≤ s.buffer.length <;>
        by_cases h2 : s.buffer = [] <;>
          simp [ColumnStream.writeSingleMark, ColumnStream.compressedNext, h1, h2]
    · by_cases h1 : minB ≤ s.buffer.length <;>
        by_cases h2 : s.buffer = [] <;>
          simp [ColumnStream.writeSingleMark, ColumnStream.compressedNext, h1, h2]
  · intro minB subs skipOffsets streams nm
    induction subs generalizing streams with
    | nil =>
      simp only [writeGranuleMarks, List.filter_nil, List.length_nil]
      cases lookupStream streams nm <;> simp
    | cons sub rest ih =>
      by_cases ha : subActive skipOffsets sub
      · rw [writeGranuleMarks, if_pos ha, ih, lookupStream_updateStream]
        by_cases hn : sub.fileName = nm
        · rw [if_pos (Eq.symm hn)]
          have hb : (sub.fileName == nm) = true := by simp [hn]
          simp only [List.filter_cons, ha, hb, Bool.and_self, if_true, List.length_cons]
          rw [hn]
          cases lookupStream streams nm with
          | none => rfl
          | some cs =>
            simp [Function.comp_def, writeSingleMark_marks_length]
            omega
        · rw [if_neg (fun hh => hn (Eq.symm hh))]
          have hb : (sub.fileName == nm) = false := by simp [hn]
          simp [List.filter_cons, hb, Bool.and_false]
      · rw [writeGranuleMarks, if_neg ha, ih]
        have hb : subActive skipOffsets sub = false := by simpa using ha
        simp [List.filter_cons, hb, Bool.false_and]

/-- Claim C8 (counterexample): marks of a single column stream are NOT
strictly monotonically increasing in the physical offset component: with
`min_compress_block_size` 100 and 1-byte rows, granularity 2, one `writeData`
call on 4 rows produces marks `[(0,0), (0,2)]` — consecutive marks share the
physical offset `0` because no flush happened between the two granules. -/
theorem c8_marks_not_strictly_increasing :
    (lookupStream
        (writeData 2 100 1000 [⟨false, "x", fun v => [v]⟩] false [1, 2, 3, 4] 0 []
          [("x", ColumnStream.initial)]) "x").map (fun cs => cs.marks)
      = some [(0, 0), (0, 2)] ∧
    ¬ (([(0, 0), (0, 2)] : List (Nat × Nat)).map Prod.fst).Chain' (· < ·) := by
  constructor
  · decide
  · simp [List.chain'_cons]

/-- Claim C8 (amended): within one writer instance the sequence of marks for
any single column stream is monotonically NON-decreasing (not strictly) in
the physical offset component, and the granule row positions visited by each
`writeData` call are strictly increasing (for positive granularity). -/
theorem c8_amended_marks_monotone :
    (∀ (calls : List WriteDataCall) (streams0 : Streams),
       AllStreamInv streams0 →
       ∀ (nm : String) (cs : ColumnStream),
         lookupStream (runWriteDataCalls calls streams0) nm = some cs →
         (cs.marks.map Prod.fst).Pairwise (· ≤ ·)) ∧
    (∀ (g index_offset size prevMark : Nat), 0 < g →
       (granuleStarts g index_offset size prevMark).Chain' (· < ·)) := by
  constructor
  · intro calls streams0 h nm cs hcs
    exact ((allInv_runWriteDataCalls calls h) _ (lookupStream_mem hcs)).1
  · intro g index_offset size prevMark hg
    suffices H : ∀ (n pm : Nat), size - pm ≤ n →
        (granuleStarts g index_offset size pm).Chain' (· < ·) from
      H size prevMark (Nat.sub_le _ _)
    intro n
    induction n with
    | zero =>
      intro pm hpm
      rw [granuleStarts, dif_neg (by omega : ¬pm < size)]
      exact List.chain'_nil
    | succ n ih =>
      intro pm hpm
      by_cases h : pm < size
      · by_cases hc : pm = 0 ∧ index_offset ≠ 0
        · rw [granuleStarts, dif_pos h, dif_pos hc]
          rw [List.chain'_cons']
          have hoff : index_offset ≠ 0 := hc.2
          refine ⟨?_, ih (pm + index_offset) (by omega)⟩
          intro y hy
          rcases granuleStarts_head g index_offset size (pm + index_offset) with he | ⟨t, ht⟩
          · rw [he] at hy
            simp at hy
          · rw [ht] at hy
            simp only [List.head?_cons, Option.mem_def, Option.some.injEq] at hy
            omega
        · rw [granuleStarts, dif_pos h, dif_neg hc, dif_pos hg]
          rw [List.chain'_cons']
          refine ⟨?_, ih (pm + g) (by omega)⟩
          intro y hy
          rcases granuleStarts_head g index_offset size (pm + g) with he | ⟨t, ht⟩
          · rw [he] at hy
            simp at hy
          · rw [ht] at hy
            simp only [List.head?_cons, Option.mem_def, Option.some.injEq] at hy
            omega
      · rw [granuleStarts, dif_neg h]
        exact List.chain'_nil

theorem c8_amended_marks_monotone_witness :
    AllStreamInv [("x", ColumnStream.initial)] ∧ 0 < 2 ∧
    (∀ (nm : String) (cs : ColumnStream),
      lookupStream
        (runWriteDataCalls [⟨2, 100, 1000, [⟨false, "x", fun v => [v]⟩], false, [1, 2, 3, 4], 0⟩]
          [("x", ColumnStream.initial)]) nm = some cs →
      (cs.marks.map Prod.fst).Pairwise (· ≤ ·)) ∧
    (granuleStarts 2 0 4 0).Chain' (· < ·) := by
  have hinv : AllStreamInv [("x", ColumnStream.initial)] := by
    intro p hp
    rw [List.mem_singleton] at hp
    subst hp
    exact inv_initial
  exact ⟨hinv, by decide, c8_amended_marks_monotone.1 _ _ hinv,
    c8_amended_marks_monotone.2 2 0 4 0 (by decide)⟩

/-- Claim C1: for any two sequences of `write` calls whose blocks
concatenate to the same total row sequence the final `marks_count` and the
primary-index contents (`index_columns` and the `primary.idx` bytes) are
identical, and so is the carried `index_offset` (recomputed after each block
by the formula of line 426, embodied in `nextIndexOffset` inside
`writeIndexBlock`): the index section of `writeImpl`, folded over any
nonempty chunking of the key columns, equals the index section applied to
the whole columns at once, so any two chunkings agree on the entire
resulting index state. -/
theorem c1_rechunking_invariance (g : Nat) (u : Bool) (cols : List (List Nat))
    (n : Nat) (szs1 szs2 : List Nat)
    (hg : 0 < g)
    (hc : ∀ c ∈ cols, c.length = n)
    (h1 : szs1 ≠ []) (h2 : szs2 ≠ [])
    (hs1 : szs1.sum = n) (hs2 : szs2.sum = n) :
    foldIndexChunks g u (chunksOf szs1 cols) ⟨0, 0, [], []⟩
      = foldIndexChunks g u (chunksOf szs2 cols) ⟨0, 0, [], []⟩ := by
  rw [chunksFold_eq g u szs1 cols n ⟨0, 0, [], []⟩ h1 hg hg hc hs1,
    chunksFold_eq g u szs2 cols n ⟨0, 0, [], []⟩ h2 hg hg hc hs2]

theorem c1_rechunking_invariance_witness :
    0 < 2 ∧ (∀ c ∈ [[5, 6, 7]], List.length c = 3) ∧
    ([3] : List Nat) ≠ [] ∧ ([1, 2] : List Nat) ≠ [] ∧
    ([3] : List Nat).sum = 3 ∧ ([1, 2] : List Nat).sum = 3 ∧
    foldIndexChunks 2 false (chunksOf [3] [[5, 6, 7]]) ⟨0, 0, [], []⟩
      = foldIndexChunks 2 false (chunksOf [1, 2] [[5, 6, 7]]) ⟨0, 0, [], []⟩ :=
  ⟨by decide, by decide, by decide, by decide, by decide, by decide,
   c1_rechunking_invariance 2 false [[5, 6, 7]] 3 [3] [1, 2] (by decide) (by decide)
     (by decide) (by decide) (by decide) (by decide)⟩

/-- Claim C2: for every sequence of `write`/`writeWithPermutation` calls on
a fresh `MergedBlockOutputStream` whose merging mode is not Unsorted, after
every call each sort-key column's index accumulator vector
(`index_columns[j]`) has length equal to `marks_count`. -/
theorem c2_index_accumulators_track_marks (cfg : Cfg) (cl : List String)
    (calls : List (Block × Option (List Nat))) (streams0 : Streams)
    (s : MergedBlockOutputStream)
    (hu : cfg.unsorted = false)
    (hok : writeSeq cfg cl calls (mkWriter streams0) = .ok s) :
    ∀ ic ∈ s.index_columns, ic.length = s.marks_count := by
  suffices H : ∀ (calls : List (Block × Option (List Nat)))
      (st sf : MergedBlockOutputStream),
      writeSeq cfg cl calls st = .ok sf →
      (∀ ic ∈ st.index_columns, ic.length = st.marks_count) →
      (st.index_columns = [] → st.marks_count = 0 ∨ cfg.sort_description = []) →
      (∀ ic ∈ sf.index_columns, ic.length = sf.marks_count) by
    refine H calls (mkWriter streams0) s hok ?_ ?_
    · intro ic hic
      cases hic
    · intro hnil
      exact Or.inl rfl
  intro calls
  induction calls with
  | nil =>
    intro st sf hseq ha hb
    rw [writeSeq, List.foldlM_nil] at hseq
    cases hseq
    exact ha
  | cons call rest ih =>
    intro st sf hseq ha hb
    rw [writeSeq, List.foldlM_cons] at hseq
    cases hstep : writeImpl cfg cl st call.1 call.2 with
    | error e =>
      rw [hstep] at hseq
      cases hseq
    | ok st1 =>
      rw [hstep] at hseq
      obtain ⟨ha1, hb1⟩ := writeImpl_ok_index_inv cfg cl st st1 call.1 call.2 hu hstep ha hb
      exact ih st1 sf hseq ha1 hb1

theorem c2_index_accumulators_track_marks_witness :
    ((⟨4, 100, 1000, false, [⟨"c", 0⟩]⟩ : Cfg).unsorted = false) ∧
    (writeSeq ⟨4, 100, 1000, false, [⟨"c", 0⟩]⟩ ["c"]
        [([⟨"c", [⟨false, "c", fun v => [v]⟩], [0, 1, 2, 3, 4, 5, 6, 7, 8, 9]⟩], none)]
        (mkWriter (addStream false [⟨false, "c", fun v => [v]⟩] []))).toOption
      = some ((writeSeq ⟨4, 100, 1000, false, [⟨"c", 0⟩]⟩ ["c"]
          [([⟨"c", [⟨false, "c", fun v => [v]⟩], [0, 1, 2, 3, 4, 5, 6, 7, 8, 9]⟩], none)]
          (mkWriter (addStream false [⟨false, "c", fun v => [v]⟩] []))).toOption.getD
            (mkWriter [])) ∧
    (∀ ic ∈ ((writeSeq ⟨4, 100, 1000, false, [⟨"c", 0⟩]⟩ ["c"]
        [([⟨"c", [⟨false, "c", fun v => [v]⟩], [0, 1, 2, 3, 4, 5, 6, 7, 8, 9]⟩], none)]
        (mkWriter (addStream false [⟨false, "c", fun v => [v]⟩] []))).toOption.getD
          (mkWriter [])).index_columns,
      ic.length = ((writeSeq ⟨4, 100, 1000, false, [⟨"c", 0⟩]⟩ ["c"]
        [([⟨"c", [⟨false, "c", fun v => [v]⟩], [0, 1, 2, 3, 4, 5, 6, 7, 8, 9]⟩], none)]
        (mkWriter (addStream false [⟨false, "c", fun v => [v]⟩] []))).toOption.getD
          (mkWriter [])).marks_count) := by
  have h : (writeSeq ⟨4, 100, 1000, false, [⟨"c", 0⟩]⟩ ["c"]
      [([⟨"c", [⟨false, "c", fun v => [v]⟩], [0, 1, 2, 3, 4, 5, 6, 7, 8, 9]⟩], none)]
      (mkWriter (addStream false [⟨false, "c", fun v => [v]⟩] []))).toOption
      = some ((writeSeq ⟨4, 100, 1000, false, [⟨"c", 0⟩]⟩ ["c"]
        [([⟨"c", [⟨false, "c", fun v => [v]⟩], [0, 1, 2, 3, 4, 5, 6, 7, 8, 9]⟩], none)]
        (mkWriter (addStream false [⟨false, "c", fun v => [v]⟩] []))).toOption.getD
          (mkWriter [])) := by decide
  have hseq : writeSeq ⟨4, 100, 1000, false, [⟨"c", 0⟩]⟩ ["c"]
      [([⟨"c", [⟨false, "c", fun v => [v]⟩], [0, 1, 2, 3, 4, 5, 6, 7, 8, 9]⟩], none)]
      (mkWriter (addStream false [⟨false, "c", fun v => [v]⟩] []))
      = .ok ((writeSeq ⟨4, 100, 1000, false, [⟨"c", 0⟩]⟩ ["c"]
        [([⟨"c", [⟨false, "c", fun v => [v]⟩], [0, 1, 2, 3, 4, 5, 6, 7, 8, 9]⟩], none)]
        (mkWriter (addStream false [⟨false, "c", fun v => [v]⟩] []))).toOption.getD
          (mkWriter [])) := by
    cases hw : writeSeq ⟨4, 100, 1000, false, [⟨"c", 0⟩]⟩ ["c"]
        [([⟨"c", [⟨false, "c", fun v => [v]⟩], [0, 1, 2, 3, 4, 5, 6, 7, 8, 9]⟩], none)]
        (mkWriter (addStream false [⟨false, "c", fun v => [v]⟩] [])) with
    | error e =>
      rw [hw] at h
      simp [Except.toOption] at h
    | ok sres =>
      rfl
  exact ⟨rfl, h,
    c2_index_accumulators_track_marks ⟨4, 100, 1000, false, [⟨"c", 0⟩]⟩ ["c"]
      [([⟨"c", [⟨false, "c", fun v => [v]⟩], [0, 1, 2, 3, 4, 5, 6, 7, 8, 9]⟩], none)]
      (addStream false [⟨false, "c", fun v => [v]⟩] []) _ rfl hseq⟩

/-- Claim C4 (failing-input evaluation): within one `write` call on a block
with two sibling nested columns `n.a`, `n.b` sharing the offsets substream
`n.size0` (granularity 2, one granule of two rows, sizes `[1, 2]`), the
shared size substream receives its mark and its serialized bytes TWICE —
marks `[(0,0), (0,2)]` and bytes `[1,2,1,2]` instead of one mark and
`[1,2]` — because this revision's `writeData` never consults the per-write
offset-sharing set it receives (the set created at the source's line 339 is
dead).  This contradicts the source's own comment ("so that you do not write
shared offsets of nested structures columns several times") and the spec. -/
theorem c4_shared_offsets_written_twice :
    (writeImpl ⟨2, 100, 1000, false, []⟩ ["n.a", "n.b"]
        (mkWriter (addStream false
          [⟨true, "n.size0", fun v => [v]⟩, ⟨false, "n.b", fun v => [v + 20]⟩]
          (addStream false
            [⟨true, "n.size0", fun v => [v]⟩, ⟨false, "n.a", fun v => [v + 10]⟩] [])))
        [⟨"n.a", [⟨true, "n.size0", fun v => [v]⟩, ⟨false, "n.a", fun v => [v + 10]⟩], [1, 2]⟩,
         ⟨"n.b", [⟨true, "n.size0", fun v => [v]⟩, ⟨false, "n.b", fun v => [v + 20]⟩], [1, 2]⟩]
        none).toOption.map
        (fun s => (lookupStream s.streams "n.size0").map (fun cs => (cs.marks, cs.buffer)))
      = some (some ([(0, 0), (0, 2)], [1, 2, 1, 2])) ∧
    ([(0, 0), (0, 2)] : List (Nat × Nat)).length ≠ 1 := by
  constructor
  · decide
  · decide

/-- Claim C6: in unsorted merging mode no `primary.idx` file is created by
`init`, the checksum map returned by `writeSuffixAndGetChecksums` never
contains a `primary.idx` entry (provided the caller did not pre-supply one),
and `marks_count` is still incremented once per granularity sample during
every write: granularity 4 with one 10-row block yields `marks_count = 3`. -/
theorem c6_unsorted_no_primary_index (cfg : Cfg) (hu : cfg.unsorted = true)
    (add : Option Checksums)
    (hadd : (⟨"primary", ".idx"⟩ : FileName) ∉ (add.getD []).map Prod.fst) :
    ((⟨"primary", ".idx"⟩ : FileName) ∉ (initPart cfg).files) ∧
    (∀ (tl : List (String × String)) (s : MergedBlockOutputStream) (fs : FS),
      (⟨"primary", ".idx"⟩ : FileName) ∉
        ((writeSuffixAndGetChecksums cfg tl add s fs).1.map Prod.fst)) ∧
    ((writeImpl ⟨4, 100, 1000, true, []⟩ ["c"]
        (mkWriter (addStream false [⟨false, "c", fun v => [v]⟩] []))
        [⟨"c", [⟨false, "c", fun v => [v]⟩], [0, 1, 2, 3, 4, 5, 6, 7, 8, 9]⟩]
        none).toOption.map (fun s => s.marks_count) = some 3) := by
  refine ⟨?_, ?_, by decide⟩
  · simp [initPart, hu]
  · intro tl s fs
    have hstreams : ∀ (streams : Streams) (cs : Checksums),
        (⟨"primary", ".idx"⟩ : FileName) ∉ cs.map Prod.fst →
        (⟨"primary", ".idx"⟩ : FileName) ∉
          (streams.foldl (fun cs p => ColumnStream.addToChecksums p.1 p.2.finalize cs) cs).map
            Prod.fst := by
      intro streams
      induction streams with
      | nil => intro cs h; exact h
      | cons p rest ih =>
        intro cs h
        refine ih _ ?_
        simp only [ColumnStream.addToChecksums]
        intro hmem
        rcases csUpdate_keys _ _ _ _ hmem with h1 | h1
        · exact absurd (congrArg FileName.ext h1) (by simp)
        · rcases csUpdate_keys _ _ _ _ h1 with h2 | h2
          · exact absurd (congrArg FileName.ext h2) (by simp)
          · exact h h2
    simp only [writeSuffixAndGetChecksums, hu, if_true]
    by_cases hm : s.marks_count = 0
    · simp [hm]
    · simp only [hm, if_false, if_neg hm]
      exact hstreams s.streams _ (by simpa using hadd)

theorem c6_unsorted_no_primary_index_witness :
    (⟨4, 100, 1000, true, []⟩ : Cfg).unsorted = true ∧
    (⟨"primary", ".idx"⟩ : FileName) ∉ ((none : Option Checksums).getD []).map Prod.fst ∧
    (((⟨"primary", ".idx"⟩ : FileName) ∉ (initPart ⟨4, 100, 1000, true, []⟩).files) ∧
     (∀ (tl : List (String × String)) (s : MergedBlockOutputStream) (fs : FS),
       (⟨"primary", ".idx"⟩ : FileName) ∉
         ((writeSuffixAndGetChecksums ⟨4, 100, 1000, true, []⟩ tl none s fs).1.map Prod.fst)) ∧
     ((writeImpl ⟨4, 100, 1000, true, []⟩ ["c"]
         (mkWriter (addStream false [⟨false, "c", fun v => [v]⟩] []))
         [⟨"c", [⟨false, "c", fun v => [v]⟩], [0, 1, 2, 3, 4, 5, 6, 7, 8, 9]⟩]
         none).toOption.map (fun s => s.marks_count) = some 3)) :=
  ⟨rfl, by simp,
   c6_unsorted_no_primary_index ⟨4, 100, 1000, true, []⟩ rfl none (by simp)⟩

theorem c10_granule_loop_termination_witness :
    0 < 2 ∧ ([3, 4, 5] : List Nat).length - 0 ≤ 3 ∧
    writeDataLoopFuel 3 2 100 1000 [] false [3, 4, 5] 0 0 []
      = some (writeDataGo 2 100 1000 [] false [3, 4, 5] 0 0 []) :=
  ⟨by decide, by decide,
   c10_granule_loop_termination.1 2 100 1000 [] false [3, 4, 5] 0 0 [] 3
     (by decide) (by decide)⟩

/-- C3: writing a block with a permutation is byte-for-byte the same as
physically permuting every column of the block and writing without one,
provided the block has no duplicate column names (a standing `Block`
invariant): the whole writer state — streams, mark count, carried offset,
index accumulators and `primary.idx` bytes — comes out identical. -/
theorem c3_permutation_refines_presort (cfg : Cfg) (cl : List String)
    (s : MergedBlockOutputStream) (block : Block) (p : List Nat)
    (hnodup : (block.map (fun c => c.name)).Nodup) :
    writeWithPermutation cfg cl s block p
      = write cfg cl s (permuteBlock p block) := by
  rw [writeWithPermutation, write, writeImpl, writeImpl,
    checkNumberOfRows_permuteBlock]
  by_cases hck : checkNumberOfRows block = false
  · rw [if_pos hck, if_pos hck]
  · rw [if_neg hck, if_neg hck]
    have hres : resolvePrimary cfg.sort_description (permuteBlock p block) none
        = resolvePrimary cfg.sort_description block (some p) :=
      resolvePrimaryGo_perm block p cfg.sort_description [] []
    rw [hres]
    cases hr : resolvePrimary cfg.sort_description block (some p) with
    | error e => rfl
    | ok pr =>
      obtain ⟨pcs, n2p⟩ := pr
      have hr' : resolvePrimaryGo block (some p) cfg.sort_description [] []
          = .ok (pcs, n2p) := hr
      have hent : ∀ e ∈ n2p, ∃ c0, getByName block e.1 = some c0 ∧
          pcs.getD e.2 dfltColumn = permuteColumn p c0 := by
        intro e he
        have h := resolvePrimaryGo_entries block p hnodup cfg.sort_description
          [] [] pcs n2p hr' (by intro e he; cases he) e he
        exact h.2
      dsimp only
      rw [writeAllColumns_perm cfg block p pcs n2p hent,
        blockRows_permuteBlock]

/-- Witness for C3 at a concrete one-column block and permutation. -/
theorem c3_permutation_refines_presort_witness :
    (([⟨"c", [], [3, 1, 2]⟩] : Block).map (fun c => c.name)).Nodup ∧
    writeWithPermutation ⟨4, 100, 1000, false, [⟨"c", 0⟩]⟩ ["c"] {} [⟨"c", [], [3, 1, 2]⟩] [1, 2, 0]
      = write ⟨4, 100, 1000, false, [⟨"c", 0⟩]⟩ ["c"] {}
          (permuteBlock [1, 2, 0] [⟨"c", [], [3, 1, 2]⟩]) :=
  ⟨by decide,
   c3_permutation_refines_presort ⟨4, 100, 1000, false, [⟨"c", 0⟩]⟩ ["c"] {}
     [⟨"c", [], [3, 1, 2]⟩] [1, 2, 0] (by decide)⟩

end MergeTreeWrite
